import Mathlib

/-!
# Bottom-up merge sort of `mergesort.c`

A shallow embedding of `Examples/Resources/C_programs/mergesort/mergesort.c`
and a verification of its contract.

* `uint64_t` index arithmetic is arithmetic on `Nat` reduced modulo `W = 2 ^ 64`.
* The two arrays are lists; a pointer is the name of the array it points to
  (`Buf.A` or `Buf.B`), so `p1 == pB` is equality of names and a call with
  `pA == pB` is expressible.
* Array accesses are checked: an index outside the list ends the run with
  `Outcome.fault` (undefined behaviour in C).
* Every `while`/`for` loop is bounded by an iteration budget; exhausting it ends
  the run with `Outcome.timeout`.  A terminating run is one that ends with
  `Outcome.done` for every large enough budget.
* The state carries a log of the calls, assignments, register accesses and
  harness messages, in the order in which they happen.
-/

namespace Mergesort

/-! ## Data model -/

/-- Modulus of `uint64_t` arithmetic. -/
def W : Nat := 2 ^ 64

/-- The macro `min(x,y)` of line 8: `((x) < (y)) ? (x) : (y)`. -/
def min (x y : Nat) : Nat := if x < y then x else y

/-- A pointer to one of the two arrays (`uint64_t A[4096], B[4096]`, line 143). -/
inductive Buf
  | A
  | B
  deriving DecidableEq, Repr

/-- Observable steps, logged in program order. -/
inductive Event
  /-- entry of `merge_engine (p1, p2, i0, span, n)` (line 15) -/
  | call (p1 p2 : Buf) (i0 span n : Nat)
  /-- the assignment `p2[j] = p1[i]` executed at source line `line` (24, 26, 28 or 30),
  copying the value `v` -/
  | assign (line : Nat) (p2 : Buf) (j : Nat) (p1 : Buf) (i : Nat) (v : Nat)
  /-- one iteration of the outer loop of `mergesort` begins with this span (line 48) -/
  | pass (span : Nat)
  /-- the instruction `fence` (line 69) -/
  | fence
  /-- the store `accel_0_addr_base[word] = val` (lines 81 to 85) -/
  | store (word val : Nat)
  /-- the load `accel_0_addr_base[word]`, which returned `val` (line 89) -/
  | load (word val : Nat)
  /-- the harness reported the pair `(j, j+1)` out of order (line 130) -/
  | error (j : Nat)
  /-- the harness reported `Verified n words sorted` (line 136) -/
  | verified (n : Nat)
  deriving DecidableEq, Repr

/-- Contents of the two arrays and the log of what happened so far. -/
structure State where
  A : List Nat
  B : List Nat
  log : List Event
  deriving DecidableEq, Repr

/-- How a run ends, with the state reached. -/
inductive Outcome
  /-- the function returned -/
  | done (s : State)
  /-- an array was accessed outside its bounds -/
  | fault (s : State)
  /-- a loop used up its iteration budget -/
  | timeout (s : State)
  deriving DecidableEq, Repr

/-- The array a pointer points to. -/
def State.buf (s : State) : Buf → List Nat
  | .A => s.A
  | .B => s.B

/-- The read `p[i]`. -/
def State.read (s : State) (p : Buf) (i : Nat) : Option Nat :=
  (s.buf p)[i]?

/-- The write `p[i] = v`. -/
def State.write (s : State) (p : Buf) (i v : Nat) : Option State :=
  if i < (s.buf p).length then
    match p with
    | .A => some { s with A := s.A.set i v }
    | .B => some { s with B := s.B.set i v }
  else none

/-- Append an event to the log. -/
def State.emit (s : State) (e : Event) : State :=
  { s with log := s.log ++ [e] }

/-- The value last stored to register `word` (0 if none was). -/
def State.reg (s : State) (word : Nat) : Nat :=
  (s.log.reverse.findSome? fun e =>
    match e with
    | .store w v => if w = word then some v else none
    | _ => none).getD 0

/-! ## `merge_engine` (lines 15 to 34) -/

/-- The statement `p2[j] = p1[i]` at source line `line`. -/
def assign (line : Nat) (p1 p2 : Buf) (i j : Nat) (s : State) : Option State :=
  match s.read p1 i with
  | none => none
  | some v =>
    match s.write p2 j v with
    | none => none
    | some s' => some (s'.emit (.assign line p2 j p1 i v))

/-- The loop `while (true) { ... }` of lines 21 to 33; the first argument bounds
the number of iterations. -/
def merge_loop (p1 p2 : Buf) (i0_lim i1_lim : Nat) :
    Nat → Nat → Nat → Nat → State → Outcome
  | 0, _, _, _, s => .timeout s
  | k + 1, i0, i1, j, s =>
    if i0 < i0_lim ∧ i1 < i1_lim then
      match s.read p1 i0, s.read p1 i1 with
      | some x, some y =>
        if x < y then
          match assign 24 p1 p2 i0 j s with
          | some s' => merge_loop p1 p2 i0_lim i1_lim k ((i0 + 1) % W) i1 ((j + 1) % W) s'
          | none => .fault s
        else
          match assign 26 p1 p2 i1 j s with
          | some s' => merge_loop p1 p2 i0_lim i1_lim k i0 ((i1 + 1) % W) ((j + 1) % W) s'
          | none => .fault s
      | _, _ => .fault s
    else if i0 < i0_lim then
      match assign 28 p1 p2 i0 j s with
      | some s' => merge_loop p1 p2 i0_lim i1_lim k ((i0 + 1) % W) i1 ((j + 1) % W) s'
      | none => .fault s
    else if i1 < i1_lim then
      match assign 30 p1 p2 i1 j s with
      | some s' => merge_loop p1 p2 i0_lim i1_lim k i0 ((i1 + 1) % W) ((j + 1) % W) s'
      | none => .fault s
    else .done s

/-- The function `merge_engine (p1, p2, i0, span, n)`. -/
def merge_engine (fuel : Nat) (p1 p2 : Buf) (i0 span n : Nat) (s : State) : Outcome :=
  let i1 := (i0 + span) % W
  let i0_lim := min i1 n
  let i1_lim := min ((i1 + span) % W) n
  let j := i0
  merge_loop p1 p2 i0_lim i1_lim fuel i0 i1 j (s.emit (.call p1 p2 i0 span n))

/-! ## `mergesort` (lines 42 to 60) -/

/-- The loop `for (i0 = 0; i0 < n; i0 += 2 * span)` of lines 49 to 51. -/
def mergesort_pass (fuel : Nat) (p1 p2 : Buf) (span n : Nat) :
    Nat → Nat → State → Outcome
  | 0, _, s => .timeout s
  | k + 1, i0, s =>
    if i0 < n then
      match merge_engine fuel p1 p2 i0 span n s with
      | .done s' => mergesort_pass fuel p1 p2 span n k ((i0 + (2 * span) % W) % W) s'
      | o => o
    else .done s

/-- The loop `while (span < n)` of lines 48 to 56 followed by the copy back of
lines 58 and 59, which uses the values of `p1` and `p2` at loop exit. -/
def mergesort_loop (fuel : Nat) (pB : Buf) (n : Nat) :
    Nat → Nat → Buf → Buf → State → Outcome
  | 0, _, _, _, s => .timeout s
  | k + 1, span, p1, p2, s =>
    if span < n then
      match mergesort_pass fuel p1 p2 span n fuel 0 (s.emit (.pass span)) with
      | .done s' => mergesort_loop fuel pB n k ((span * 2) % W) p2 p1 s'
      | o => o
    else if p1 = pB then
      merge_engine fuel p1 p2 0 n n s
    else .done s

/-- The function `mergesort (pA, pB, n)`. -/
def mergesort (fuel : Nat) (pA pB : Buf) (n : Nat) (s : State) : Outcome :=
  mergesort_loop fuel pB n fuel 1 pA pB s

/-! ## `mergesort_accelerated` (lines 67 to 94) -/

/-- The accelerator as the host sees it during one call. -/
structure Device where
  /-- the value returned by the `k`-th read of register word 0 after the start command -/
  status : Nat → Nat
  /-- what the device has made of the arrays `(A, B)` when the host observes completion,
  given the contents of register words 1, 2 and 3 -/
  memory : Nat → Nat → Nat → List Nat × List Nat → List Nat × List Nat

/-- The arrays as the device leaves them, from the registers last stored. -/
def State.completed (s : State) (dev : Device) : State :=
  let m := dev.memory (s.reg 1) (s.reg 2) (s.reg 3) (s.A, s.B)
  { s with A := m.1, B := m.2 }

/-- The loop of lines 88 to 91; `k` counts the status reads made so far. -/
def poll_loop (dev : Device) : Nat → Nat → State → Outcome
  | 0, _, s => .timeout s
  | f + 1, k, s =>
    let status := dev.status k
    let s1 := s.emit (.load 0 status)
    if status = 0 then .done (s1.completed dev)
    else poll_loop dev f (k + 1) s1

/-- The function `mergesort_accelerated (pA, pB, n)`; `addr p` is `(uint64_t) p`. -/
def mergesort_accelerated (fuel : Nat) (dev : Device) (addr : Buf → Nat)
    (pA pB : Buf) (n : Nat) (s : State) : Outcome :=
  let s := s.emit .fence
  let s := s.emit (.store 1 (addr pA))
  let s := s.emit (.store 2 (addr pB))
  let s := s.emit (.store 3 n)
  let s := s.emit (.store 0 1)
  match poll_loop dev fuel 0 s with
  | .done s' => .done (s'.emit .fence)
  | o => o

/-! ## The harness `run` (lines 105 to 139) -/

/-- The loop of lines 108 and 109: `pA[j] = n - 1 - j`. -/
def load_loop (pA : Buf) (n : Nat) : Nat → Nat → State → Outcome
  | 0, _, s => .timeout s
  | k + 1, j, s =>
    if j < n then
      match s.write pA j (((n + W - 1) % W + W - j) % W) with
      | some s' => load_loop pA n k ((j + 1) % W) s'
      | none => .fault s
    else .done s

/-- The loop of lines 128 to 134 followed by the report of lines 135 and 136. -/
def verify_loop (pA : Buf) (n : Nat) : Nat → Nat → Bool → State → Outcome
  | 0, _, _, s => .timeout s
  | k + 1, j, sorted, s =>
    if j < (n + W - 1) % W then
      match s.read pA j, s.read pA ((j + 1) % W) with
      | some x, some y =>
        if x > y then verify_loop pA n k ((j + 1) % W) false (s.emit (.error j))
        else verify_loop pA n k ((j + 1) % W) sorted s
      | _, _ => .fault s
    else .done (if sorted then s.emit (.verified n) else s)

/-- The function `run (accelerated, pA, pB, n)`, without its printing of the
arrays and its cycle counting. -/
def run (fuel : Nat) (dev : Device) (addr : Buf → Nat) (accelerated : Bool)
    (pA pB : Buf) (n : Nat) (s : State) : Outcome :=
  match load_loop pA n fuel 0 s with
  | .done s1 =>
    match (if !accelerated then mergesort fuel pA pB n s1
           else mergesort_accelerated fuel dev addr pA pB n s1) with
    | .done s2 => verify_loop pA n fuel 0 true s2
    | o => o
  | o => o

/-! ## Specification vocabulary -/

/-- The segment `l[a .. b)` of a list. -/
def slice (l : List Nat) (a b : Nat) : List Nat :=
  (l.drop a).take (b - a)

/-- The merge of two runs in the order `merge_loop` produces: the head of the left
run is taken exactly when it is strictly less than the head of the right run. -/
def mergeRuns : List Nat → List Nat → List Nat
  | [], ys => ys
  | xs, [] => xs
  | x :: xs, y :: ys =>
    if x < y then x :: mergeRuns xs (y :: ys) else y :: mergeRuns (x :: xs) ys

/-- One pass over a list: consecutive pairs of runs of length `span` are merged. -/
def passList (span : Nat) (l : List Nat) : List Nat :=
  if span = 0 ∨ l = [] then l
  else mergeRuns (l.take span) ((l.drop span).take span) ++ passList span (l.drop (2 * span))
termination_by l.length
decreasing_by
  simp_wf
  rename_i h
  have h1 : span ≠ 0 := fun h0 => h (Or.inl h0)
  have h2 : l ≠ [] := fun h0 => h (Or.inr h0)
  have h3 : 0 < l.length := List.length_pos.mpr h2
  omega

/-- Every aligned block of length `span` of the list is non-decreasing. -/
def BlocksSorted (span : Nat) (l : List Nat) : Prop :=
  ∀ b, (slice l (b * span) (b * span + span)).Sorted (· ≤ ·)

/-- The array an assignment event writes to, and the index written. -/
def Event.written : Event → Option (Buf × Nat)
  | .assign _ p2 j _ _ _ => some (p2, j)
  | _ => none

/-- The writes to the arrays recorded in a log, in order. -/
def writes (log : List Event) : List (Buf × Nat) :=
  log.filterMap Event.written

/-- The state a run ended in. -/
def Outcome.state : Outcome → State
  | .done s => s
  | .fault s => s
  | .timeout s => s

/-- The array whose address is `a`, if there is one. -/
def decode (addr : Buf → Nat) (a : Nat) : Option Buf :=
  if a = addr .A then some .A else if a = addr .B then some .B else none

/-- Modelled from the spec: the accelerator device, whose hardware description is not
part of the C source.  Following sections 2, 4.3 and 6 of the specification: once
started, with the address of the source buffer in word 1, the address of the scratch
buffer in word 2 and the element count in word 3, the device realizes an equivalent
merge schedule on these two host buffers (here the schedule of `mergesort` itself, with
iteration budget `budget`); word 0 reads non-zero while it is running (here for the
first `latency` reads) and 0 once it is done. -/
def accelerator (addr : Buf → Nat) (latency budget : Nat) : Device where
  status := fun k => if k < latency then 1 else 0
  memory := fun src dst count m =>
    match decode addr src, decode addr dst with
    | some p1, some p2 =>
      match mergesort budget p1 p2 count ⟨m.1, m.2, []⟩ with
      | .done s => (s.A, s.B)
      | _ => m
    | _, _ => m

/-- The span of a pass event. -/
def Event.passSpan : Event → Option Nat
  | .pass span => some span
  | _ => none

/-- The spans of the passes of the outer loop recorded in a log, in order. -/
def passes (log : List Event) : List Nat :=
  log.filterMap Event.passSpan

/-- Whether an event is the entry of a call of `merge_engine`. -/
def Event.isCall : Event → Bool
  | .call _ _ _ _ _ => true
  | _ => false

/-- The calls of `merge_engine` recorded in a log, in order. -/
def calls (log : List Event) : List Event :=
  log.filter Event.isCall

/-- The scenario of the specification: `n = 6`, `A = [5, 4, 3, 2, 1, 0]`, with the scratch
array zeroed as the global `B` is at program start. -/
def scenario_six : State :=
  ⟨[5, 4, 3, 2, 1, 0], [0, 0, 0, 0, 0, 0], []⟩

/-- Every aligned block of length `span` of `l` is a permutation of the same block of
`l0`. -/
def BlocksPerm (span : Nat) (l l0 : List Nat) : Prop :=
  ∀ b, (slice l (b * span) (b * span + span)).Perm (slice l0 (b * span) (b * span + span))

/-! ## Lists: segments and merging -/

theorem min_eq (x y : Nat) : min x y = Min.min x y := by
  unfold min
  rw [Nat.min_def]
  split <;> split <;> omega

theorem getElem?_slice (l : List Nat) (a b t : Nat) :
    (slice l a b)[t]? = if t < b - a then l[a + t]? else none := by
  unfold slice
  simp [List.getElem?_take, List.getElem?_drop]

theorem length_slice (l : List Nat) (a b : Nat) (h : b ≤ l.length) :
    (slice l a b).length = b - a := by
  unfold slice
  simp
  omega

theorem slice_cons (l : List Nat) (a b : Nat) (x : Nat) (h : a < b) (hx : l[a]? = some x) :
    slice l a b = x :: slice l (a + 1) b := by
  apply List.ext_getElem?
  intro t
  cases t with
  | zero => simp [getElem?_slice, hx]; omega
  | succ t =>
    simp only [getElem?_slice, List.getElem?_cons_succ]
    have : a + (t + 1) = a + 1 + t := by omega
    rw [this]
    by_cases h1 : t + 1 < b - a
    · rw [if_pos h1, if_pos (by omega)]
    · rw [if_neg h1, if_neg (by omega)]

theorem slice_empty (l : List Nat) (a b : Nat) (h : b ≤ a) : slice l a b = [] := by
  unfold slice
  have : b - a = 0 := by omega
  simp [this]

theorem getElem?_of_lt (l : List Nat) {i : Nat} (h : i < l.length) : ∃ x, l[i]? = some x :=
  ⟨l[i], List.getElem?_eq_getElem h⟩

theorem tail_drop (l : List Nat) (c : Nat) : l.tail.drop c = l.drop (c + 1) := by
  cases l <;> simp

theorem mergeRuns_nil_right (xs : List Nat) : mergeRuns xs [] = xs := by
  cases xs <;> simp [mergeRuns]

theorem mergeRuns_nil_left (ys : List Nat) : mergeRuns [] ys = ys := by
  simp [mergeRuns]

theorem mergeRuns_perm : ∀ xs ys : List Nat, (mergeRuns xs ys).Perm (xs ++ ys)
  | [], ys => by simp [mergeRuns]
  | x :: xs, [] => by simp [mergeRuns]
  | x :: xs, y :: ys => by
    rw [mergeRuns]
    split
    · exact (mergeRuns_perm xs (y :: ys)).cons x
    · have h := (mergeRuns_perm (x :: xs) ys).cons y
      exact h.trans (List.perm_middle.symm)

theorem mem_mergeRuns {a : Nat} {xs ys : List Nat} :
    a ∈ mergeRuns xs ys ↔ a ∈ xs ∨ a ∈ ys := by
  rw [(mergeRuns_perm xs ys).mem_iff, List.mem_append]

theorem length_mergeRuns (xs ys : List Nat) :
    (mergeRuns xs ys).length = xs.length + ys.length := by
  rw [(mergeRuns_perm xs ys).length_eq, List.length_append]

theorem mergeRuns_sorted : ∀ xs ys : List Nat,
    xs.Sorted (· ≤ ·) → ys.Sorted (· ≤ ·) → (mergeRuns xs ys).Sorted (· ≤ ·)
  | [], ys, _, h => by simpa [mergeRuns] using h
  | x :: xs, [], h, _ => by simpa [mergeRuns] using h
  | x :: xs, y :: ys, hx, hy => by
    rw [mergeRuns]
    have hx' := List.sorted_cons.mp hx
    have hy' := List.sorted_cons.mp hy
    split
    · rename_i hlt
      refine List.sorted_cons.mpr ⟨?_, mergeRuns_sorted xs (y :: ys) hx'.2 hy⟩
      intro b hb
      rcases mem_mergeRuns.mp hb with hb | hb
      · exact hx'.1 b hb
      · rcases List.mem_cons.mp hb with rfl | hb
        · omega
        · have := hy'.1 b hb
          omega
    · rename_i hlt
      refine List.sorted_cons.mpr ⟨?_, mergeRuns_sorted (x :: xs) ys hx hy'.2⟩
      intro b hb
      rcases mem_mergeRuns.mp hb with hb | hb
      · rcases List.mem_cons.mp hb with rfl | hb
        · omega
        · have := hx'.1 b hb
          omega
      · exact hy'.1 b hb

/-! ## State primitives -/

@[simp] theorem buf_emit (s : State) (e : Event) (p : Buf) : (s.emit e).buf p = s.buf p := by
  cases p <;> rfl

@[simp] theorem log_emit (s : State) (e : Event) : (s.emit e).log = s.log ++ [e] := rfl

theorem write_eq (s : State) (p : Buf) (j v : Nat) (h : j < (s.buf p).length) :
    ∃ s', s.write p j v = some s' ∧ s'.buf p = (s.buf p).set j v ∧
      (∀ q, q ≠ p → s'.buf q = s.buf q) ∧ s'.log = s.log := by
  cases p
  · refine ⟨{ s with A := s.A.set j v }, ?_, rfl, ?_, rfl⟩
    · simp [State.write, h]
    · intro q hq
      cases q
      · exact absurd rfl hq
      · rfl
  · refine ⟨{ s with B := s.B.set j v }, ?_, rfl, ?_, rfl⟩
    · simp [State.write, h]
    · intro q hq
      cases q
      · rfl
      · exact absurd rfl hq

theorem assign_eq (line : Nat) (p1 p2 : Buf) (i j v : Nat) (s : State)
    (hr : (s.buf p1)[i]? = some v) (hj : j < (s.buf p2).length) :
    ∃ s', assign line p1 p2 i j s = some s' ∧ s'.buf p2 = (s.buf p2).set j v ∧
      (∀ q, q ≠ p2 → s'.buf q = s.buf q) ∧
      s'.log = s.log ++ [.assign line p2 j p1 i v] := by
  obtain ⟨s1, hw, hb, hq, hl⟩ := write_eq s p2 j v hj
  refine ⟨s1.emit (.assign line p2 j p1 i v), ?_, ?_, ?_, ?_⟩
  · simp [assign, State.read, hr, hw]
  · simpa using hb
  · intro q hne
    simpa using hq q hne
  · simp [hl]

theorem assign_step {p1 p2 : Buf} (hne : p1 ≠ p2) (line i j v : Nat) (s : State)
    (pre post : List Nat) (hr : (s.buf p1)[i]? = some v) (hb : s.buf p2 = pre ++ post)
    (hj : pre.length = j) (hpost : 0 < post.length) :
    ∃ s', assign line p1 p2 i j s = some s' ∧ s'.buf p1 = s.buf p1 ∧
      s'.buf p2 = (pre ++ [v]) ++ post.tail ∧
      s'.log = s.log ++ [.assign line p2 j p1 i v] := by
  have hlen : j < (s.buf p2).length := by
    rw [hb, List.length_append]
    omega
  obtain ⟨s1, ha, hb2, hq, hl⟩ := assign_eq line p1 p2 i j v s hr hlen
  refine ⟨s1, ha, hq p1 hne, ?_, hl⟩
  rw [hb2, hb]
  cases post with
  | nil => simp at hpost
  | cons w post =>
    subst hj
    simp

/-! ## The merge loop -/

theorem writes_append (l1 l2 : List Event) : writes (l1 ++ l2) = writes l1 ++ writes l2 := by
  simp [writes, List.filterMap_append]

theorem mod_W_succ {i lim : Nat} (h : i < lim) (hl : lim < W) : (i + 1) % W = i + 1 :=
  Nat.mod_eq_of_lt (by omega)

/-- Exact effect of the loop of `merge_engine` when source and destination differ. -/
theorem merge_loop_spec {p1 p2 : Buf} (hne : p1 ≠ p2) (i0_lim i1_lim : Nat)
    (h0W : i0_lim < W) (h1W : i1_lim < W) :
    ∀ (k i0 i1 j : Nat) (s : State) (pre post : List Nat),
      i0_lim ≤ (s.buf p1).length → i1_lim ≤ (s.buf p1).length →
      s.buf p2 = pre ++ post → pre.length = j →
      (i0_lim - i0) + (i1_lim - i1) ≤ post.length →
      j + ((i0_lim - i0) + (i1_lim - i1)) < W →
      (i0_lim - i0) + (i1_lim - i1) < k →
      ∃ s', merge_loop p1 p2 i0_lim i1_lim k i0 i1 j s = .done s' ∧
        s'.buf p1 = s.buf p1 ∧
        s'.buf p2 = pre ++ mergeRuns (slice (s.buf p1) i0 i0_lim) (slice (s.buf p1) i1 i1_lim)
          ++ post.drop ((i0_lim - i0) + (i1_lim - i1)) ∧
        writes s'.log = writes s.log ++
          (List.range' j ((i0_lim - i0) + (i1_lim - i1))).map (fun t => (p2, t)) := by
  intro k
  induction k with
  | zero => intro i0 i1 j s pre post _ _ _ _ _ _ hk; omega
  | succ k ih =>
    intro i0 i1 j s pre post hl0 hl1 hb hj hpost hjW hk
    have left_step : ∀ line x, i0 < i0_lim → (s.buf p1)[i0]? = some x →
        ∃ s1, assign line p1 p2 i0 j s = some s1 ∧
        ∃ s', merge_loop p1 p2 i0_lim i1_lim k ((i0 + 1) % W) i1 ((j + 1) % W) s1 = .done s' ∧
        s'.buf p1 = s.buf p1 ∧
        s'.buf p2 = pre ++ x :: mergeRuns (slice (s.buf p1) (i0 + 1) i0_lim)
            (slice (s.buf p1) i1 i1_lim)
          ++ post.drop ((i0_lim - i0) + (i1_lim - i1)) ∧
        writes s'.log = writes s.log ++
          (List.range' j ((i0_lim - i0) + (i1_lim - i1))).map (fun t => (p2, t)) := by
      intro line x h0 hx
      obtain ⟨s1, ha, hb1, hb2, hlog⟩ :=
        assign_step hne line i0 j x s pre post hx hb hj (by omega)
      refine ⟨s1, ha, ?_⟩
      have e0 : (i0 + 1) % W = i0 + 1 := mod_W_succ h0 h0W
      have ej : (j + 1) % W = j + 1 := Nat.mod_eq_of_lt (by omega)
      rw [e0, ej]
      obtain ⟨s', hrun, hr1, hr2, hr3⟩ := ih (i0 + 1) i1 (j + 1) s1 (pre ++ [x]) post.tail
        (by rw [hb1]; exact hl0) (by rw [hb1]; exact hl1) hb2 (by simp [hj])
        (by simp; omega) (by omega) (by omega)
      refine ⟨s', hrun, hr1.trans hb1, ?_, ?_⟩
      · rw [hr2, hb1]
        have hc : (i0_lim - i0) + (i1_lim - i1) = ((i0_lim - (i0 + 1)) + (i1_lim - i1)) + 1 := by
          omega
        rw [hc, ← tail_drop]
        simp
      · rw [hr3, hlog, writes_append]
        have hc : (i0_lim - i0) + (i1_lim - i1) = ((i0_lim - (i0 + 1)) + (i1_lim - i1)) + 1 := by
          omega
        rw [hc, List.range'_succ]
        simp [writes, Event.written]
    have right_step : ∀ line y, i1 < i1_lim → (s.buf p1)[i1]? = some y →
        ∃ s1, assign line p1 p2 i1 j s = some s1 ∧
        ∃ s', merge_loop p1 p2 i0_lim i1_lim k i0 ((i1 + 1) % W) ((j + 1) % W) s1 = .done s' ∧
        s'.buf p1 = s.buf p1 ∧
        s'.buf p2 = pre ++ y :: mergeRuns (slice (s.buf p1) i0 i0_lim)
            (slice (s.buf p1) (i1 + 1) i1_lim)
          ++ post.drop ((i0_lim - i0) + (i1_lim - i1)) ∧
        writes s'.log = writes s.log ++
          (List.range' j ((i0_lim - i0) + (i1_lim - i1))).map (fun t => (p2, t)) := by
      intro line y h1 hy
      obtain ⟨s1, ha, hb1, hb2, hlog⟩ :=
        assign_step hne line i1 j y s pre post hy hb hj (by omega)
      refine ⟨s1, ha, ?_⟩
      have e1 : (i1 + 1) % W = i1 + 1 := mod_W_succ h1 h1W
      have ej : (j + 1) % W = j + 1 := Nat.mod_eq_of_lt (by omega)
      rw [e1, ej]
      obtain ⟨s', hrun, hr1, hr2, hr3⟩ := ih i0 (i1 + 1) (j + 1) s1 (pre ++ [y]) post.tail
        (by rw [hb1]; exact hl0) (by rw [hb1]; exact hl1) hb2 (by simp [hj])
        (by simp; omega) (by omega) (by omega)
      refine ⟨s', hrun, hr1.trans hb1, ?_, ?_⟩
      · rw [hr2, hb1]
        have hc : (i0_lim - i0) + (i1_lim - i1) = ((i0_lim - i0) + (i1_lim - (i1 + 1))) + 1 := by
          omega
        rw [hc, ← tail_drop]
        simp
      · rw [hr3, hlog, writes_append]
        have hc : (i0_lim - i0) + (i1_lim - i1) = ((i0_lim - i0) + (i1_lim - (i1 + 1))) + 1 := by
          omega
        rw [hc, List.range'_succ]
        simp [writes, Event.written]
    by_cases h0 : i0 < i0_lim
    · obtain ⟨x, hx⟩ := getElem?_of_lt (s.buf p1) (Nat.lt_of_lt_of_le h0 hl0)
      by_cases h1 : i1 < i1_lim
      · obtain ⟨y, hy⟩ := getElem?_of_lt (s.buf p1) (Nat.lt_of_lt_of_le h1 hl1)
        rw [slice_cons _ _ _ x h0 hx, slice_cons _ _ _ y h1 hy]
        by_cases hlt : x < y
        · obtain ⟨s1, ha, s', hrun, hr1, hr2, hr3⟩ := left_step 24 x h0 hx
          refine ⟨s', ?_, hr1, ?_, hr3⟩
          · simp [merge_loop, h0, h1, State.read, hx, hy, hlt, ha, hrun]
          · rw [hr2, mergeRuns, if_pos hlt, slice_cons _ _ _ y h1 hy]
        · obtain ⟨s1, ha, s', hrun, hr1, hr2, hr3⟩ := right_step 26 y h1 hy
          refine ⟨s', ?_, hr1, ?_, hr3⟩
          · simp [merge_loop, h0, h1, State.read, hx, hy, hlt, ha, hrun]
          · rw [hr2, mergeRuns, if_neg hlt, slice_cons _ _ _ x h0 hx]
      · obtain ⟨s1, ha, s', hrun, hr1, hr2, hr3⟩ := left_step 28 x h0 hx
        refine ⟨s', ?_, hr1, ?_, hr3⟩
        · simp [merge_loop, h0, h1, ha, hrun]
        · rw [hr2, slice_cons _ _ _ x h0 hx, slice_empty _ i1 i1_lim (by omega)]
          simp [mergeRuns_nil_right]
    · by_cases h1 : i1 < i1_lim
      · obtain ⟨y, hy⟩ := getElem?_of_lt (s.buf p1) (Nat.lt_of_lt_of_le h1 hl1)
        obtain ⟨s1, ha, s', hrun, hr1, hr2, hr3⟩ := right_step 30 y h1 hy
        refine ⟨s', ?_, hr1, ?_, hr3⟩
        · simp [merge_loop, h0, h1, ha, hrun]
        · rw [hr2, slice_cons _ _ _ y h1 hy, slice_empty _ i0 i0_lim (by omega)]
          simp [mergeRuns_nil_left]
      · refine ⟨s, ?_, rfl, ?_, ?_⟩
        · simp [merge_loop, h0, h1]
        · have hc : (i0_lim - i0) + (i1_lim - i1) = 0 := by omega
          rw [hc, slice_empty _ i0 i0_lim (by omega), slice_empty _ i1 i1_lim (by omega)]
          simp [mergeRuns, hb]
        · have hc : (i0_lim - i0) + (i1_lim - i1) = 0 := by omega
          rw [hc]
          simp

/-! ## `merge_engine` -/

/-- Exact effect of `merge_engine` when no index computation wraps. -/
theorem merge_engine_spec {p1 p2 : Buf} (hne : p1 ≠ p2) (fuel i0 span n : Nat) (s : State)
    (hW : i0 + 2 * span < W) (hnW : n < W) (hi0 : i0 ≤ n)
    (hsrc : Min.min (i0 + 2 * span) n ≤ (s.buf p1).length)
    (hdst : Min.min (i0 + 2 * span) n ≤ (s.buf p2).length)
    (hfuel : Min.min (i0 + 2 * span) n - i0 < fuel) :
    ∃ s', merge_engine fuel p1 p2 i0 span n s = .done s' ∧
      s'.buf p1 = s.buf p1 ∧
      s'.buf p2 = (s.buf p2).take i0 ++
        mergeRuns (slice (s.buf p1) i0 (Min.min (i0 + span) n))
          (slice (s.buf p1) (i0 + span) (Min.min (i0 + 2 * span) n))
        ++ (s.buf p2).drop (Min.min (i0 + 2 * span) n) ∧
      writes s'.log = writes s.log ++
        (List.range' i0 (Min.min (i0 + 2 * span) n - i0)).map (fun t => (p2, t)) := by
  have e1 : (i0 + span) % W = i0 + span := Nat.mod_eq_of_lt (by omega)
  have e2 : (i0 + span + span) % W = i0 + 2 * span := by
    rw [Nat.mod_eq_of_lt (by omega)]
    omega
  have hcnt : (Min.min (i0 + span) n - i0) + (Min.min (i0 + 2 * span) n - (i0 + span))
      = Min.min (i0 + 2 * span) n - i0 := by omega
  unfold merge_engine
  simp only [e1, e2, min_eq]
  obtain ⟨s', hrun, hr1, hr2, hr3⟩ := merge_loop_spec hne (Min.min (i0 + span) n)
    (Min.min (i0 + 2 * span) n) (by omega) (by omega) fuel i0 (i0 + span) i0
    (s.emit (.call p1 p2 i0 span n)) ((s.buf p2).take i0) ((s.buf p2).drop i0)
    (by simp; omega) (by simpa using hsrc) (by simp) (by simp; omega) (by simp; omega)
    (by omega) (by omega)
  refine ⟨s', hrun, by simpa using hr1, ?_, ?_⟩
  · rw [hr2, hcnt, List.drop_drop]
    have : i0 + (Min.min (i0 + 2 * span) n - i0) = Min.min (i0 + 2 * span) n := by omega
    simp [this]
  · rw [hr3, hcnt]
    simp [writes_append, writes, Event.written]

/-! ## One pass of `mergesort` -/

theorem slice_take (l : List Nat) (a b c : Nat) :
    (slice l a b).take c = slice l a (Min.min (a + c) b) := by
  apply List.ext_getElem?
  intro t
  simp only [List.getElem?_take, getElem?_slice]
  by_cases h1 : t < c
  · by_cases h2 : t < b - a
    · rw [if_pos h1, if_pos h2, if_pos (by omega)]
    · rw [if_pos h1, if_neg h2, if_neg (by omega)]
  · rw [if_neg h1, if_neg (by omega)]

theorem slice_drop (l : List Nat) (a b c : Nat) :
    (slice l a b).drop c = slice l (a + c) b := by
  apply List.ext_getElem?
  intro t
  simp only [List.getElem?_drop, getElem?_slice]
  by_cases h1 : c + t < b - a
  · rw [if_pos h1, if_pos (by omega)]
    congr 1
    omega
  · rw [if_neg h1, if_neg (by omega)]

theorem passList_nil (span : Nat) : passList span [] = [] := by
  rw [passList]
  simp

theorem passList_unfold (span : Nat) (l : List Nat) (hs : 0 < span) (hl : l ≠ []) :
    passList span l = mergeRuns (l.take span) ((l.drop span).take span)
      ++ passList span (l.drop (2 * span)) := by
  rw [passList]
  have : ¬ (span = 0 ∨ l = []) := by
    intro h
    rcases h with h | h
    · omega
    · exact hl h
  rw [if_neg this]

theorem passList_slice (span : Nat) (l : List Nat) (i0 n : Nat) (hs : 0 < span)
    (h : i0 < n) (hn : n ≤ l.length) :
    passList span (slice l i0 n) =
      mergeRuns (slice l i0 (Min.min (i0 + span) n))
        (slice l (i0 + span) (Min.min (i0 + 2 * span) n))
      ++ passList span (slice l (i0 + 2 * span) n) := by
  have hne : slice l i0 n ≠ [] := by
    intro h0
    have := length_slice l i0 n hn
    rw [h0] at this
    simp at this
    omega
  rw [passList_unfold span _ hs hne, slice_take, slice_drop, slice_take, slice_drop]
  have e1 : i0 + span + span = i0 + 2 * span := by omega
  rw [e1]

theorem step_le {a m M : Nat} (ha : a ∣ m) (hM : a ∣ M) (h : m < M) : m + a ≤ M := by
  obtain ⟨q, rfl⟩ := ha
  obtain ⟨r, rfl⟩ := hM
  have hq : q < r := Nat.lt_of_mul_lt_mul_left h
  calc a * q + a = a * (q + 1) := by ring
    _ ≤ a * r := Nat.mul_le_mul_left a hq

/-- Exact effect of the `for` loop of `mergesort` from index `i0` on. -/
theorem mergesort_pass_spec {p1 p2 : Buf} (hne : p1 ≠ p2) (fuel span n : Nat)
    (hs : 0 < span) (hd : 2 * span ∣ 2 ^ 63) (hn : n ≤ 2 ^ 63) (hfuel : n < fuel) :
    ∀ (k i0 : Nat) (s : State) (pre post : List Nat),
      2 * span ∣ i0 → n ≤ (s.buf p1).length →
      s.buf p2 = pre ++ post → pre.length = Min.min i0 n → n ≤ pre.length + post.length →
      n - i0 < k →
      ∃ s', mergesort_pass fuel p1 p2 span n k i0 s = .done s' ∧
        s'.buf p1 = s.buf p1 ∧
        s'.buf p2 = pre ++ passList span (slice (s.buf p1) i0 n)
          ++ post.drop (n - Min.min i0 n) ∧
        writes s'.log = writes s.log ++
          (List.range' (Min.min i0 n) (n - i0)).map (fun t => (p2, t)) := by
  intro k
  induction k with
  | zero => intro i0 s pre post _ _ _ _ _ hk; omega
  | succ k ih =>
    intro i0 s pre post hdiv hsrc hb hpre hlen hk
    by_cases h : i0 < n
    · have hstep : i0 + 2 * span ≤ 2 ^ 63 := step_le hdiv hd (by omega)
      have hW : (2 : Nat) ^ 63 < W := by unfold W; norm_num
      obtain ⟨s1, hrun, hr1, hr2, hr3⟩ := merge_engine_spec hne fuel i0 span n s
        (by omega) (by omega) (by omega) (by omega)
        (by rw [hb, List.length_append]; omega) (by omega)
      have e1 : (i0 + (2 * span) % W) % W = i0 + 2 * span := by
        rw [Nat.mod_eq_of_lt (a := 2 * span) (by omega), Nat.mod_eq_of_lt (by omega)]
      have hpre' : pre.length = i0 := by omega
      have hb1 : s1.buf p2 = (pre ++ mergeRuns (slice (s.buf p1) i0 (Min.min (i0 + span) n))
          (slice (s.buf p1) (i0 + span) (Min.min (i0 + 2 * span) n)))
          ++ post.drop (Min.min (i0 + 2 * span) n - i0) := by
        rw [hr2, hb, List.take_left' hpre', List.drop_append_eq_append_drop]
        have : Min.min (i0 + 2 * span) n - pre.length = Min.min (i0 + 2 * span) n - i0 := by
          omega
        rw [this, List.drop_eq_nil_of_le (by omega)]
        simp
      have hmlen : (mergeRuns (slice (s.buf p1) i0 (Min.min (i0 + span) n))
          (slice (s.buf p1) (i0 + span) (Min.min (i0 + 2 * span) n))).length
          = Min.min (i0 + 2 * span) n - i0 := by
        rw [length_mergeRuns, length_slice _ _ _ (by omega), length_slice _ _ _ (by omega)]
        omega
      obtain ⟨s', hrun', hr1', hr2', hr3'⟩ := ih (i0 + 2 * span) s1 _ _
        (Dvd.dvd.add hdiv (dvd_refl _)) (by rw [hr1]; exact hsrc) hb1
        (by rw [List.length_append, hmlen]; omega)
        (by rw [List.length_append, hmlen, List.length_drop]; omega) (by omega)
      refine ⟨s', ?_, hr1'.trans hr1, ?_, ?_⟩
      · simp [mergesort_pass, h, hrun, e1, hrun']
      · rw [hr2', hr1, passList_slice span _ i0 n hs h hsrc, List.drop_drop]
        have : Min.min (i0 + 2 * span) n - i0 + (n - Min.min (i0 + 2 * span) n)
            = n - Min.min i0 n := by omega
        have this2 : (n - Min.min (i0 + 2 * span) n) + (Min.min (i0 + 2 * span) n - i0)
            = n - Min.min i0 n := by omega
        simp [this, this2]
      · rw [hr3', hr3, List.append_assoc, ← List.map_append]
        congr 2
        have e3 : Min.min i0 n = i0 := by omega
        have e4 : n - i0 = (Min.min (i0 + 2 * span) n - i0) + (n - (i0 + 2 * span)) := by omega
        have e5 : Min.min (i0 + 2 * span) n = i0 + (Min.min (i0 + 2 * span) n - i0) := by omega
        rw [e3, e4]
        conv_lhs => rw [e5]
        simp only [Nat.add_sub_cancel_left]
        rw [List.range'_append_1, Nat.add_comm]
    · refine ⟨s, ?_, rfl, ?_, ?_⟩
      · simp [mergesort_pass, h]
      · rw [slice_empty _ _ _ (by omega), passList_nil]
        have : n - Min.min i0 n = 0 := by omega
        simp [this, hb]
      · have : n - i0 = 0 := by omega
        simp [this]

/-! ## Lists: what a pass preserves and establishes -/

theorem slice_zero (l : List Nat) (n : Nat) : slice l 0 n = l.take n := by
  simp [slice]

theorem slice_block (l : List Nat) (a c : Nat) : slice l a (a + c) = (l.drop a).take c := by
  simp [slice]

theorem take_take_drop (l : List Nat) (c : Nat) :
    l.take c ++ (l.drop c).take c ++ l.drop (2 * c) = l := by
  have h := List.take_append_drop (2 * c) l
  have h2 : l.take (2 * c) = l.take c ++ (l.drop c).take c := by
    rw [two_mul, List.take_add]
  rw [← h2, h]

theorem passList_perm (span : Nat) :
    ∀ (m : Nat) (l : List Nat), l.length ≤ m → (passList span l).Perm l := by
  intro m
  induction m with
  | zero =>
    intro l hl
    have : l = [] := List.length_eq_zero.mp (by omega)
    subst this
    rw [passList_nil]
  | succ m ih =>
    intro l hl
    by_cases hs : span = 0
    · rw [passList]
      simp [hs]
    · by_cases hnil : l = []
      · subst hnil
        rw [passList_nil]
      · rw [passList_unfold span l (by omega) hnil]
        have hlen : 0 < l.length := List.length_pos.mpr hnil
        have h1 := ih (l.drop (2 * span)) (by rw [List.length_drop]; omega)
        have h2 := mergeRuns_perm (l.take span) ((l.drop span).take span)
        have h3 := List.Perm.append h2 h1
        rw [take_take_drop] at h3
        exact h3

theorem length_passList (span : Nat) (l : List Nat) : (passList span l).length = l.length :=
  (passList_perm span l.length l (Nat.le_refl _)).length_eq

theorem passList_take (span : Nat) (l : List Nat) (hs : 0 < span) :
    (passList span l).take (2 * span) = mergeRuns (l.take span) ((l.drop span).take span) := by
  by_cases hnil : l = []
  · subst hnil
    simp [passList_nil, mergeRuns]
  · rw [passList_unfold span l hs hnil]
    by_cases hlen : 2 * span ≤ l.length
    · rw [List.take_left']
      rw [length_mergeRuns]
      simp
      omega
    · have : l.drop (2 * span) = [] := List.drop_eq_nil_of_le (by omega)
      rw [this, passList_nil, List.append_nil]
      apply List.take_of_length_le
      rw [length_mergeRuns]
      simp
      omega

theorem passList_drop (span : Nat) (l : List Nat) (hs : 0 < span) :
    (passList span l).drop (2 * span) = passList span (l.drop (2 * span)) := by
  by_cases hnil : l = []
  · subst hnil
    simp [passList_nil]
  · rw [passList_unfold span l hs hnil]
    by_cases hlen : 2 * span ≤ l.length
    · rw [List.drop_left']
      rw [length_mergeRuns]
      simp
      omega
    · have : l.drop (2 * span) = [] := List.drop_eq_nil_of_le (by omega)
      rw [this, passList_nil, List.append_nil]
      apply List.drop_eq_nil_of_le
      rw [length_mergeRuns]
      simp
      omega

theorem passList_drop_mul (span : Nat) (hs : 0 < span) :
    ∀ (b : Nat) (l : List Nat),
      (passList span l).drop (b * (2 * span)) = passList span (l.drop (b * (2 * span))) := by
  intro b
  induction b with
  | zero => intro l; simp
  | succ b ih =>
    intro l
    have e : (b + 1) * (2 * span) = 2 * span + b * (2 * span) := by ring
    rw [e, ← List.drop_drop, ← List.drop_drop, passList_drop span l hs, ih]

theorem blocksSorted_one (l : List Nat) : BlocksSorted 1 l := by
  intro b
  rw [slice_block]
  cases h : l.drop (b * 1) with
  | nil => simp
  | cons x t => simp

theorem blocksSorted_pass (span : Nat) (l : List Nat) (hs : 0 < span)
    (h : BlocksSorted span l) : BlocksSorted (2 * span) (passList span l) := by
  intro b
  rw [slice_block, passList_drop_mul span hs, passList_take span _ hs]
  apply mergeRuns_sorted
  · have := h (2 * b)
    rw [slice_block] at this
    have e : 2 * b * span = b * (2 * span) := by ring
    rw [e] at this
    exact this
  · have := h (2 * b + 1)
    rw [slice_block] at this
    have e : (2 * b + 1) * span = b * (2 * span) + span := by ring
    rw [e, ← List.drop_drop] at this
    exact this

theorem sorted_of_blocksSorted (span : Nat) (l : List Nat) (h : BlocksSorted span l)
    (hl : l.length ≤ span) : l.Sorted (· ≤ ·) := by
  have := h 0
  rw [slice_block] at this
  simpa [List.take_of_length_le hl] using this

/-! ## The outer loop and `mergesort` -/

theorem buf_cases {p1 p2 : Buf} (hne : p1 ≠ p2) (p : Buf) : p = p1 ∨ p = p2 := by
  cases p <;> cases p1 <;> cases p2 <;> simp at hne ⊢

theorem pow_lt_W_of_lt {e n : Nat} (h : 2 ^ e < n) (hn : n < 2 ^ 63) : e < 63 := by
  have : 2 ^ e < 2 ^ 63 := Nat.lt_trans h hn
  exact (Nat.pow_lt_pow_iff_right (by norm_num)).mp this

/-- The copy back `merge_engine (p1, p2, 0, n, n)` copies `p1[0 .. n)` to `p2[0 .. n)`. -/
theorem copy_back_spec {p1 p2 : Buf} (hne : p1 ≠ p2) (fuel n : Nat) (s : State)
    (hn : n < 2 ^ 63) (hfuel : n < fuel)
    (hsrc : n ≤ (s.buf p1).length) (hdst : n ≤ (s.buf p2).length) :
    ∃ s', merge_engine fuel p1 p2 0 n n s = .done s' ∧
      s'.buf p1 = s.buf p1 ∧
      s'.buf p2 = (s.buf p1).take n ++ (s.buf p2).drop n ∧
      writes s'.log = writes s.log ++ (List.range' 0 n).map (fun t => (p2, t)) := by
  have hW : W = 2 ^ 64 := rfl
  obtain ⟨s', hrun, hr1, hr2, hr3⟩ := merge_engine_spec hne fuel 0 n n s
    (by omega) (by omega) (by omega) (by omega) (by omega) (by omega)
  refine ⟨s', hrun, hr1, ?_, ?_⟩
  · rw [hr2]
    have e1 : Min.min (0 + n) n = n := by omega
    have e2 : Min.min (0 + 2 * n) n = n := by omega
    rw [e1, e2, slice_empty _ (0 + n) n (by omega), mergeRuns_nil_right, slice_zero]
    simp
  · rw [hr3]
    have e2 : Min.min (0 + 2 * n) n - 0 = n := by omega
    rw [e2]

/-- The outer loop with its copy back, started with runs of length `2 ^ e` sorted in
the buffer `p1`: it returns, and the buffer other than `pB` then holds the sorted
rearrangement in its first `n` places. -/
theorem mergesort_loop_spec (fuel n : Nat) (pB : Buf) (hn : n < 2 ^ 63) (hfuel : n < fuel)
    (l0 : List Nat) :
    ∀ (k e : Nat) (p1 p2 : Buf) (s : State), p1 ≠ p2 →
      n ≤ (s.buf p1).length → n ≤ (s.buf p2).length →
      BlocksSorted (2 ^ e) ((s.buf p1).take n) → ((s.buf p1).take n).Perm l0 →
      n - 2 ^ e < k →
      ∃ s', mergesort_loop fuel pB n k (2 ^ e) p1 p2 s = .done s' ∧
        (∀ p, p ≠ pB → ((s'.buf p).take n).Sorted (· ≤ ·) ∧ ((s'.buf p).take n).Perm l0) ∧
        (∀ p, (s'.buf p).drop n = (s.buf p).drop n) ∧
        (∀ p, (s'.buf p).length = (s.buf p).length) := by
  intro k
  induction k with
  | zero => intro e p1 p2 s _ _ _ _ _ hk; omega
  | succ k ih =>
    intro e p1 p2 s hne hl1 hl2 hblocks hperm hk
    have hpos : 0 < 2 ^ e := Nat.two_pow_pos e
    have hW : (2 : Nat) ^ 63 < W := by unfold W; norm_num
    by_cases hlt : 2 ^ e < n
    · have he : e < 63 := pow_lt_W_of_lt hlt hn
      have hd : 2 * 2 ^ e ∣ 2 ^ 63 := by
        rw [← pow_succ']
        exact Nat.pow_dvd_pow 2 (by omega)
      obtain ⟨s1, hrun, hr1, hr2, _⟩ := mergesort_pass_spec hne fuel (2 ^ e) n hpos hd
        (by omega) hfuel fuel 0 (s.emit (.pass (2 ^ e))) [] (s.buf p2) (dvd_zero _)
        (by simpa using hl1) (by simp) (by simp) (by simpa using hl2) (by omega)
      have hb2 : s1.buf p2 = passList (2 ^ e) ((s.buf p1).take n) ++ (s.buf p2).drop n := by
        rw [hr2]
        simp [slice_zero]
      have hb1 : s1.buf p1 = s.buf p1 := by simpa using hr1
      have hlenp : (passList (2 ^ e) ((s.buf p1).take n)).length = n := by
        rw [length_passList, List.length_take]
        omega
      have htake : (s1.buf p2).take n = passList (2 ^ e) ((s.buf p1).take n) := by
        rw [hb2, List.take_left' hlenp]
      have hdrop : (s1.buf p2).drop n = (s.buf p2).drop n := by
        rw [hb2, List.drop_left' hlenp]
      have hlen2 : (s1.buf p2).length = (s.buf p2).length := by
        rw [hb2, List.length_append, hlenp, List.length_drop]
        omega
      have e2 : (2 ^ e * 2) % W = 2 ^ (e + 1) := by
        rw [← pow_succ]
        apply Nat.mod_eq_of_lt
        have : 2 ^ (e + 1) ≤ 2 ^ 63 := Nat.pow_le_pow_right (by norm_num) (by omega)
        omega
      have hlt2 : 2 ^ (e + 1) = 2 * 2 ^ e := pow_succ' 2 e
      obtain ⟨s', hrun', hres, hfr, hlen⟩ := ih (e + 1) p2 p1 s1 hne.symm
        (by omega) (by rw [hb1]; exact hl1)
        (by rw [htake, hlt2]; exact blocksSorted_pass _ _ hpos hblocks)
        (by rw [htake]; exact (passList_perm _ _ _ (Nat.le_refl _)).trans hperm)
        (by omega)
      refine ⟨s', ?_, hres, ?_, ?_⟩
      · simp [mergesort_loop, hlt, hrun, e2, hrun']
      · intro p
        rcases buf_cases hne p with rfl | rfl
        · rw [hfr, hb1]
        · rw [hfr, hdrop]
      · intro p
        rcases buf_cases hne p with rfl | rfl
        · rw [hlen, hb1]
        · rw [hlen, hlen2]
    · have hsorted : ((s.buf p1).take n).Sorted (· ≤ ·) :=
        sorted_of_blocksSorted _ _ hblocks (by rw [List.length_take]; omega)
      by_cases hp : p1 = pB
      · obtain ⟨s', hrun, hr1, hr2, _⟩ := copy_back_spec hne fuel n s hn hfuel hl1 hl2
        have htake : (s'.buf p2).take n = (s.buf p1).take n := by
          rw [hr2, List.take_left' (by rw [List.length_take]; omega)]
        refine ⟨s', ?_, ?_, ?_, ?_⟩
        · rw [mergesort_loop, if_neg hlt, if_pos hp]
          exact hrun
        · intro p hpne
          have : p = p2 := by
            rcases buf_cases hne p with h | h
            · exact absurd (h.trans hp) hpne
            · exact h
          subst this
          rw [htake]
          exact ⟨hsorted, hperm⟩
        · intro p
          rcases buf_cases hne p with rfl | rfl
          · rw [hr1]
          · rw [hr2, List.drop_left' (by rw [List.length_take]; omega)]
        · intro p
          rcases buf_cases hne p with rfl | rfl
          · rw [hr1]
          · rw [hr2, List.length_append, List.length_take, List.length_drop]
            omega
      · refine ⟨s, ?_, ?_, fun _ => rfl, fun _ => rfl⟩
        · simp [mergesort_loop, hlt, hp]
        · intro p hpne
          have hpB : pB = p2 := by
            rcases buf_cases hne pB with h | h
            · exact absurd h.symm hp
            · exact h
          have : p = p1 := by
            rcases buf_cases hne p with h | h
            · exact h
            · exact absurd (h.trans hpB.symm) hpne
          subst this
          exact ⟨hsorted, hperm⟩

/-- Contract of `mergesort` on distinct buffers. -/
theorem mergesort_spec {pA pB : Buf} (hne : pA ≠ pB) (fuel n : Nat) (s : State)
    (hn : n < 2 ^ 63) (hfuel : n < fuel)
    (hA : n ≤ (s.buf pA).length) (hB : n ≤ (s.buf pB).length) :
    ∃ s', mergesort fuel pA pB n s = .done s' ∧
      ((s'.buf pA).take n).Sorted (· ≤ ·) ∧
      ((s'.buf pA).take n).Perm ((s.buf pA).take n) ∧
      (∀ p, (s'.buf p).drop n = (s.buf p).drop n) ∧
      (∀ p, (s'.buf p).length = (s.buf p).length) := by
  obtain ⟨s', hrun, hres, hfr, hlen⟩ := mergesort_loop_spec fuel n pB hn hfuel
    ((s.buf pA).take n) fuel 0 pA pB s hne hA hB
    (by simpa using blocksSorted_one _) (List.Perm.refl _) (by simp; omega)
  exact ⟨s', by simpa [mergesort] using hrun, (hres pA hne).1, (hres pA hne).2, hfr, hlen⟩

/-! ## Segments of the destination -/

theorem slice_append (l : List Nat) (a b c : Nat) (hab : a ≤ b) (hbc : b ≤ c) :
    slice l a b ++ slice l b c = slice l a c := by
  have h := List.take_append_drop (b - a) (slice l a c)
  rw [slice_take, slice_drop] at h
  have e1 : Min.min (a + (b - a)) c = b := by omega
  have e2 : a + (b - a) = b := by omega
  rw [e1, e2] at h
  exact h

theorem slice_middle (pre mid post : List Nat) (a b : Nat) (hpre : pre.length = a)
    (hmid : mid.length = b - a) : slice (pre ++ mid ++ post) a b = mid := by
  unfold slice
  rw [List.append_assoc, List.drop_left' hpre, List.take_left' hmid]

theorem getElem?_frame (mid l : List Nat) (a b k : Nat) (hl : b ≤ l.length)
    (hab : a ≤ b) (hmid : mid.length = b - a) (hk : k < a ∨ b ≤ k) :
    (l.take a ++ mid ++ l.drop b)[k]? = l[k]? := by
  have hla : (l.take a).length = a := by rw [List.length_take]; omega
  rcases hk with hk | hk
  · rw [List.append_assoc, List.getElem?_append_left (by omega), List.getElem?_take]
    simp [hk]
  · rw [List.getElem?_append_right (by rw [List.length_append]; omega),
      List.getElem?_drop, List.length_append, hla, hmid]
    congr 1
    omega

/-! ## The accelerated path -/

/-- The polling loop only logs reads of word 0, the first of them (if the budget allows
one) being read number `k`. -/
theorem poll_loop_log (dev : Device) : ∀ (f k : Nat) (s : State),
    ∃ rest, (poll_loop dev f k s).state.log = s.log ++ rest ∧
      (∀ e ∈ rest, ∃ v, e = Event.load 0 v) ∧
      ((f = 0 ∧ rest = []) ∨ ∃ rest', rest = Event.load 0 (dev.status k) :: rest') := by
  intro f
  induction f with
  | zero =>
    intro k s
    exact ⟨[], by simp [poll_loop, Outcome.state], by simp, Or.inl ⟨rfl, rfl⟩⟩
  | succ f ih =>
    intro k s
    by_cases h : dev.status k = 0
    · refine ⟨[.load 0 (dev.status k)], ?_, ?_, Or.inr ⟨[], rfl⟩⟩
      · simp [poll_loop, h, Outcome.state, State.completed, State.emit]
      · intro e he
        exact ⟨dev.status k, by simpa using he⟩
    · obtain ⟨rest, h1, h2, _⟩ := ih (k + 1) (s.emit (.load 0 (dev.status k)))
      refine ⟨.load 0 (dev.status k) :: rest, ?_, ?_, Or.inr ⟨rest, rfl⟩⟩
      · simp only [poll_loop, h, if_false]
        rw [h1]
        simp
      · intro e he
        rcases List.mem_cons.mp he with rfl | he
        · exact ⟨_, rfl⟩
        · exact h2 e he

theorem reg_emit_load (s : State) (w v word : Nat) :
    (s.emit (.load w v)).reg word = s.reg word := by
  simp [State.reg, State.emit]

theorem reg_completed (s : State) (dev : Device) (word : Nat) :
    (s.completed dev).reg word = s.reg word := rfl

/-- Against the modelled accelerator the polling loop returns once the latency has
elapsed, with the arrays as the device leaves them. -/
theorem poll_loop_accelerator (addr : Buf → Nat) (latency budget : Nat) :
    ∀ (f k : Nat) (s : State), k ≤ latency → latency - k < f →
      ∃ s' : State, poll_loop (accelerator addr latency budget) f k s
          = .done (s'.completed (accelerator addr latency budget)) ∧
        s'.A = s.A ∧ s'.B = s.B ∧ ∀ word, s'.reg word = s.reg word := by
  intro f
  induction f with
  | zero => intro k s _ hf; omega
  | succ f ih =>
    intro k s hk hf
    by_cases h : k < latency
    · obtain ⟨s', hrun, hA, hB, hreg⟩ := ih (k + 1) (s.emit (.load 0 1)) (by omega) (by omega)
      refine ⟨s', ?_, hA, hB, ?_⟩
      · simp [poll_loop, accelerator, h]
        simpa [accelerator] using hrun
      · intro word
        rw [hreg, reg_emit_load]
    · refine ⟨s.emit (.load 0 0), ?_, rfl, rfl, ?_⟩
      · simp [poll_loop, accelerator, h]
      · intro word
        rw [reg_emit_load]

theorem decode_addr (addr : Buf → Nat) (h : addr .A ≠ addr .B) (p : Buf) :
    decode addr (addr p) = some p := by
  cases p
  · simp [decode]
  · simp [decode, Ne.symm h]

/-! ## A larger iteration budget does not change a run that ended -/

theorem merge_loop_succ (p1 p2 : Buf) (l0 l1 : Nat) :
    ∀ (k i0 i1 j : Nat) (s : State) (r : Outcome),
      merge_loop p1 p2 l0 l1 k i0 i1 j s = r → (∀ t, r ≠ .timeout t) →
      merge_loop p1 p2 l0 l1 (k + 1) i0 i1 j s = r := by
  intro k
  induction k with
  | zero =>
    intro i0 i1 j s r h hr
    exact absurd h.symm (hr s)
  | succ k ih =>
    intro i0 i1 j s r h hr
    rw [merge_loop] at h ⊢
    by_cases hc : i0 < l0 ∧ i1 < l1
    · rw [if_pos hc] at h ⊢
      cases hx : s.read p1 i0 with
      | none => simpa [hx] using h
      | some x =>
        cases hy : s.read p1 i1 with
        | none => simpa [hx, hy] using h
        | some y =>
          simp only [hx, hy] at h ⊢
          by_cases hlt : x < y
          · rw [if_pos hlt] at h ⊢
            cases ha : assign 24 p1 p2 i0 j s with
            | none => simpa [ha] using h
            | some s' =>
              simp only [ha] at h ⊢
              exact ih _ _ _ _ _ h hr
          · rw [if_neg hlt] at h ⊢
            cases ha : assign 26 p1 p2 i1 j s with
            | none => simpa [ha] using h
            | some s' =>
              simp only [ha] at h ⊢
              exact ih _ _ _ _ _ h hr
    · rw [if_neg hc] at h ⊢
      by_cases h0 : i0 < l0
      · rw [if_pos h0] at h ⊢
        cases ha : assign 28 p1 p2 i0 j s with
        | none => simpa [ha] using h
        | some s' =>
          simp only [ha] at h ⊢
          exact ih _ _ _ _ _ h hr
      · rw [if_neg h0] at h ⊢
        by_cases h1 : i1 < l1
        · rw [if_pos h1] at h ⊢
          cases ha : assign 30 p1 p2 i1 j s with
          | none => simpa [ha] using h
          | some s' =>
            simp only [ha] at h ⊢
            exact ih _ _ _ _ _ h hr
        · rw [if_neg h1] at h ⊢
          exact h

theorem merge_loop_mono (p1 p2 : Buf) (l0 l1 : Nat) (k i0 i1 j : Nat) (s : State)
    (r : Outcome) (h : merge_loop p1 p2 l0 l1 k i0 i1 j s = r) (hr : ∀ t, r ≠ .timeout t) :
    ∀ d, merge_loop p1 p2 l0 l1 (k + d) i0 i1 j s = r := by
  intro d
  induction d with
  | zero => exact h
  | succ d ih => exact merge_loop_succ p1 p2 l0 l1 (k + d) i0 i1 j s r ih hr

theorem merge_engine_mono (fuel d : Nat) (p1 p2 : Buf) (i0 span n : Nat) (s : State)
    (r : Outcome) (h : merge_engine fuel p1 p2 i0 span n s = r)
    (hr : ∀ t, r ≠ .timeout t) :
    merge_engine (fuel + d) p1 p2 i0 span n s = r :=
  merge_loop_mono _ _ _ _ _ _ _ _ _ r h hr d

theorem mergesort_pass_mono (fuel d : Nat) (p1 p2 : Buf) (span n : Nat) :
    ∀ (k c i0 : Nat) (s : State) (r : Outcome),
      mergesort_pass fuel p1 p2 span n k i0 s = r → (∀ t, r ≠ .timeout t) →
      mergesort_pass (fuel + d) p1 p2 span n (k + c) i0 s = r := by
  intro k
  induction k with
  | zero =>
    intro c i0 s r h hr
    exact absurd h.symm (hr s)
  | succ k ih =>
    intro c i0 s r h hr
    have e : k + 1 + c = (k + c) + 1 := by omega
    rw [e]
    rw [mergesort_pass] at h ⊢
    by_cases hc : i0 < n
    · rw [if_pos hc] at h ⊢
      cases hm : merge_engine fuel p1 p2 i0 span n s with
      | done s' =>
        rw [merge_engine_mono fuel d p1 p2 i0 span n s _ hm (by simp)]
        simp only [hm] at h ⊢
        exact ih _ _ _ _ h hr
      | fault s' =>
        rw [merge_engine_mono fuel d p1 p2 i0 span n s _ hm (by simp)]
        simpa [hm] using h
      | timeout s' =>
        simp only [hm] at h
        exact absurd h.symm (hr s')
    · rw [if_neg hc] at h ⊢
      exact h

theorem mergesort_loop_mono (fuel d : Nat) (pB : Buf) (n : Nat) :
    ∀ (k c span : Nat) (p1 p2 : Buf) (s : State) (r : Outcome),
      mergesort_loop fuel pB n k span p1 p2 s = r → (∀ t, r ≠ .timeout t) →
      mergesort_loop (fuel + d) pB n (k + c) span p1 p2 s = r := by
  intro k
  induction k with
  | zero =>
    intro c span p1 p2 s r h hr
    exact absurd h.symm (hr s)
  | succ k ih =>
    intro c span p1 p2 s r h hr
    have e : k + 1 + c = (k + c) + 1 := by omega
    rw [e]
    rw [mergesort_loop] at h ⊢
    by_cases hc : span < n
    · rw [if_pos hc] at h ⊢
      cases hm : mergesort_pass fuel p1 p2 span n fuel 0 (s.emit (.pass span)) with
      | done s' =>
        rw [mergesort_pass_mono fuel d p1 p2 span n fuel d 0 _ _ hm (by simp)]
        simp only [hm] at h ⊢
        exact ih _ _ _ _ _ _ h hr
      | fault s' =>
        rw [mergesort_pass_mono fuel d p1 p2 span n fuel d 0 _ _ hm (by simp)]
        simpa [hm] using h
      | timeout s' =>
        simp only [hm] at h
        exact absurd h.symm (hr s')
    · rw [if_neg hc] at h ⊢
      by_cases hp : p1 = pB
      · rw [if_pos hp] at h ⊢
        exact merge_engine_mono fuel d p1 p2 0 n n s r h hr
      · rw [if_neg hp] at h ⊢
        exact h

/-- A run of `mergesort` that returned or faulted is the same under any larger budget. -/
theorem mergesort_mono (fuel d : Nat) (pA pB : Buf) (n : Nat) (s : State) (r : Outcome)
    (h : mergesort fuel pA pB n s = r) (hr : ∀ t, r ≠ .timeout t) :
    mergesort (fuel + d) pA pB n s = r :=
  mergesort_loop_mono fuel d pB n fuel d 1 pA pB s r h hr

/-! ## The harness -/

theorem write_step (p : Buf) (j v : Nat) (s : State) (pre post : List Nat)
    (hb : s.buf p = pre ++ post) (hj : pre.length = j) (hpost : 0 < post.length) :
    ∃ s', s.write p j v = some s' ∧ s'.buf p = (pre ++ [v]) ++ post.tail ∧
      (∀ q, q ≠ p → s'.buf q = s.buf q) ∧ s'.log = s.log := by
  have hlen : j < (s.buf p).length := by
    rw [hb, List.length_append]
    omega
  obtain ⟨s1, hw, hb2, hq, hl⟩ := write_eq s p j v hlen
  refine ⟨s1, hw, ?_, hq, hl⟩
  rw [hb2, hb]
  cases post with
  | nil => simp at hpost
  | cons w post =>
    subst hj
    simp

theorem load_value {n j : Nat} (hj : j < n) (hn : n < W) :
    ((n + W - 1) % W + W - j) % W = n - 1 - j := by
  have hW : W = 2 ^ 64 := rfl
  have e1 : (n + W - 1) % W = n - 1 := by
    have : n + W - 1 = (n - 1) + W := by omega
    rw [this, Nat.add_mod_right, Nat.mod_eq_of_lt (by omega)]
  rw [e1]
  have : n - 1 + W - j = (n - 1 - j) + W := by omega
  rw [this, Nat.add_mod_right, Nat.mod_eq_of_lt (by omega)]

/-- The loading loop writes `n - 1 - j` at every index `j < n`. -/
theorem load_loop_spec (pA : Buf) (n : Nat) (hn : n < W) :
    ∀ (k j : Nat) (s : State) (pre post : List Nat),
      s.buf pA = pre ++ post → pre.length = j → n - j ≤ post.length → n - j < k →
      ∃ s', load_loop pA n k j s = .done s' ∧
        s'.buf pA = pre ++ (List.range' j (n - j)).map (fun t => n - 1 - t)
          ++ post.drop (n - j) ∧
        (∀ q, q ≠ pA → s'.buf q = s.buf q) ∧ s'.log = s.log := by
  intro k
  induction k with
  | zero => intro j s pre post _ _ _ hk; omega
  | succ k ih =>
    intro j s pre post hb hj hpost hk
    by_cases h : j < n
    · obtain ⟨s1, hw, hb1, hq1, hl1⟩ := write_step pA j (n - 1 - j) s pre post hb hj (by omega)
      have ej : (j + 1) % W = j + 1 := Nat.mod_eq_of_lt (by omega)
      obtain ⟨s', hrun, hr1, hr2, hr3⟩ := ih (j + 1) s1 (pre ++ [n - 1 - j]) post.tail hb1
        (by simp [hj]) (by simp; omega) (by omega)
      refine ⟨s', ?_, ?_, ?_, hr3.trans hl1⟩
      · rw [load_loop, if_pos h, load_value h hn, hw]
        simp only [ej]
        exact hrun
      · rw [hr1]
        have hc : n - j = (n - (j + 1)) + 1 := by omega
        rw [hc, List.range'_succ, ← tail_drop]
        simp
      · intro q hq
        rw [hr2 q hq, hq1 q hq]
    · refine ⟨s, ?_, ?_, fun _ _ => rfl, rfl⟩
      · rw [load_loop, if_neg h]
      · have : n - j = 0 := by omega
        simp [this, hb]

/-- On a buffer whose adjacent pairs below `n` are in order, the checking loop reports
nothing but `Verified`. -/
theorem verify_loop_spec (pA : Buf) (n : Nat) (s : State) (hn1 : 1 ≤ n) (hn : n < W)
    (hlen : n ≤ (s.buf pA).length)
    (hord : ∀ j x y, j + 1 < n → (s.buf pA)[j]? = some x → (s.buf pA)[j + 1]? = some y →
      x ≤ y) :
    ∀ (k j : Nat), n - 1 - j < k →
      verify_loop pA n k j true s = .done (s.emit (.verified n)) := by
  have hW : W = 2 ^ 64 := rfl
  have e1 : (n + W - 1) % W = n - 1 := by
    have : n + W - 1 = (n - 1) + W := by omega
    rw [this, Nat.add_mod_right, Nat.mod_eq_of_lt (by omega)]
  intro k
  induction k with
  | zero => intro j hk; omega
  | succ k ih =>
    intro j hk
    rw [verify_loop, e1]
    by_cases h : j < n - 1
    · have ej : (j + 1) % W = j + 1 := Nat.mod_eq_of_lt (by omega)
      obtain ⟨x, hx⟩ := getElem?_of_lt (s.buf pA) (i := j) (by omega)
      obtain ⟨y, hy⟩ := getElem?_of_lt (s.buf pA) (i := j + 1) (by omega)
      have hxy : ¬ (x > y) := by
        have := hord j x y (by omega) hx hy
        omega
      rw [if_pos h, ej]
      simp only [State.read, hx, hy, if_neg hxy]
      exact ih (j + 1) (by omega)
    · rw [if_neg h]
      simp

theorem descending_perm (n : Nat) :
    ((List.range' 0 n).map (fun t => n - 1 - t)).Perm (List.range n) := by
  have h := List.reverse_range' 0 n
  rw [← List.range_eq_range'] at h ⊢
  have e : (List.range n).map (fun t => n - 1 - t) = (List.range n).map (0 + n - 1 - ·) := by
    apply List.map_congr_left
    intro a _
    simp
  rw [e, ← h]
  exact List.reverse_perm _

/-- For `1 ≤ n < 2 ^ 63` the harness loads the descending sequence, `mergesort` turns
it into `0, 1, ..., n - 1`, and the check reports nothing but `Verified`. -/
theorem run_verifies (pA pB : Buf) (fuel n : Nat) (dev : Device) (addr : Buf → Nat)
    (s : State) (hne : pA ≠ pB) (hn1 : 1 ≤ n) (hn : n < 2 ^ 63)
    (hA : n ≤ (s.buf pA).length) (hB : n ≤ (s.buf pB).length) (hfuel : n < fuel) :
    ∃ s1 s2, load_loop pA n fuel 0 s = .done s1 ∧
      (∀ j, j < n → (s1.buf pA)[j]? = some (n - 1 - j)) ∧
      mergesort fuel pA pB n s1 = .done s2 ∧
      (∀ j, j < n → (s2.buf pA)[j]? = some j) ∧
      run fuel dev addr false pA pB n s = .done (s2.emit (.verified n)) := by
  have hW : W = 2 ^ 64 := rfl
  obtain ⟨s1, hload, hl1, hl2, _⟩ := load_loop_spec pA n (by omega) fuel 0 s [] (s.buf pA)
    (by simp) rfl (by simpa using hA) (by omega)
  have hdesc : (s1.buf pA).take n = (List.range' 0 n).map (fun t => n - 1 - t) := by
    rw [hl1]
    simp
  have hlenA : (s1.buf pA).length = (s.buf pA).length := by
    rw [hl1]
    simp
    omega
  obtain ⟨s2, hsort, hs, hp, _, hlen2⟩ := mergesort_spec hne fuel n s1 hn hfuel
    (by omega) (by rw [hl2 pB (Ne.symm hne)]; exact hB)
  have hrange : (s2.buf pA).take n = List.range n := by
    rw [hdesc] at hp
    exact List.eq_of_perm_of_sorted (hp.trans (descending_perm n)) hs (List.sorted_le_range n)
  have hget : ∀ j, j < n → (s2.buf pA)[j]? = some j := by
    intro j hj
    have := congrArg (fun l => l[j]?) hrange
    simpa [List.getElem?_take, hj, List.getElem?_range] using this
  have hget1 : ∀ j, j < n → (s1.buf pA)[j]? = some (n - 1 - j) := by
    intro j hj
    have := congrArg (fun l => l[j]?) hdesc
    simpa [List.getElem?_take, hj, List.getElem?_range'] using this
  refine ⟨s1, s2, hload, hget1, hsort, hget, ?_⟩
  have hver := verify_loop_spec pA n s2 hn1 (by omega) (by rw [hlen2]; omega)
    (by
      intro j x y hj hx hy
      rw [hget j (by omega)] at hx
      rw [hget (j + 1) hj] at hy
      simp at hx hy
      omega) fuel 0 (by omega)
  simp [run, hload, hsort, hver]

/-! ## Single iterations of the merge loop -/

/-- One iteration of the merge loop that does not leave the loop: it performs one write,
at index `j`, and the sum of the two remaining run lengths goes down by one. -/
theorem merge_loop_step (p1 p2 : Buf) (l0 l1 k i0 i1 j : Nat) (s : State)
    (h0W : l0 < W) (h1W : l1 < W)
    (hl0 : l0 ≤ (s.buf p1).length) (hl1 : l1 ≤ (s.buf p1).length)
    (hj : j < (s.buf p2).length) (hm : 0 < (l0 - i0) + (l1 - i1)) :
    ∃ i0' i1' s1,
      merge_loop p1 p2 l0 l1 (k + 1) i0 i1 j s
        = merge_loop p1 p2 l0 l1 k i0' i1' ((j + 1) % W) s1 ∧
      (l0 - i0') + (l1 - i1') + 1 = (l0 - i0) + (l1 - i1) ∧
      (∀ p, (s1.buf p).length = (s.buf p).length) ∧
      writes s1.log = writes s.log ++ [(p2, j)] ∧
      ∃ line i v, s1.log = s.log ++ [Event.assign line p2 j p1 i v] := by
  have fin : ∀ (line i v : Nat) (s1 : State), (s1.buf p2 = (s.buf p2).set j v) →
      (∀ q, q ≠ p2 → s1.buf q = s.buf q) →
      s1.log = s.log ++ [.assign line p2 j p1 i v] →
      (∀ p, (s1.buf p).length = (s.buf p).length) ∧
        writes s1.log = writes s.log ++ [(p2, j)] ∧
        ∃ line i v, s1.log = s.log ++ [Event.assign line p2 j p1 i v] := by
    intro line i v s1 hb hq hl
    refine ⟨?_, ?_, ⟨line, i, v, hl⟩⟩
    · intro p
      by_cases hp : p = p2
      · subst hp
        rw [hb, List.length_set]
      · rw [hq p hp]
    · rw [hl, writes_append]
      simp [writes, Event.written]
  by_cases h0 : i0 < l0
  · obtain ⟨x, hx⟩ := getElem?_of_lt (s.buf p1) (Nat.lt_of_lt_of_le h0 hl0)
    have e0 : (i0 + 1) % W = i0 + 1 := mod_W_succ h0 h0W
    by_cases h1 : i1 < l1
    · obtain ⟨y, hy⟩ := getElem?_of_lt (s.buf p1) (Nat.lt_of_lt_of_le h1 hl1)
      have e1 : (i1 + 1) % W = i1 + 1 := mod_W_succ h1 h1W
      by_cases hlt : x < y
      · obtain ⟨s1, ha, hb, hq, hl⟩ := assign_eq 24 p1 p2 i0 j x s hx hj
        refine ⟨i0 + 1, i1, s1, ?_, by omega, fin 24 i0 x s1 hb hq hl⟩
        simp [merge_loop, h0, h1, State.read, hx, hy, hlt, ha, e0]
      · obtain ⟨s1, ha, hb, hq, hl⟩ := assign_eq 26 p1 p2 i1 j y s hy hj
        refine ⟨i0, i1 + 1, s1, ?_, by omega, fin 26 i1 y s1 hb hq hl⟩
        simp [merge_loop, h0, h1, State.read, hx, hy, hlt, ha, e1]
    · obtain ⟨s1, ha, hb, hq, hl⟩ := assign_eq 28 p1 p2 i0 j x s hx hj
      refine ⟨i0 + 1, i1, s1, ?_, by omega, fin 28 i0 x s1 hb hq hl⟩
      simp [merge_loop, h0, h1, ha, e0]
  · have h1 : i1 < l1 := by omega
    obtain ⟨y, hy⟩ := getElem?_of_lt (s.buf p1) (Nat.lt_of_lt_of_le h1 hl1)
    have e1 : (i1 + 1) % W = i1 + 1 := mod_W_succ h1 h1W
    obtain ⟨s1, ha, hb, hq, hl⟩ := assign_eq 30 p1 p2 i1 j y s hy hj
    refine ⟨i0, i1 + 1, s1, ?_, by omega, fin 30 i1 y s1 hb hq hl⟩
    simp [merge_loop, h0, h1, ha, e1]

/-- The merge loop returns after as many writes as the two runs have elements left,
whether or not source and destination are the same array. -/
theorem merge_loop_total (p1 p2 : Buf) (l0 l1 : Nat) (h0W : l0 < W) (h1W : l1 < W) :
    ∀ (k i0 i1 j : Nat) (s : State),
      l0 ≤ (s.buf p1).length → l1 ≤ (s.buf p1).length →
      (0 < (l0 - i0) + (l1 - i1) → j + ((l0 - i0) + (l1 - i1)) ≤ (s.buf p2).length) →
      j + ((l0 - i0) + (l1 - i1)) < W →
      (l0 - i0) + (l1 - i1) < k →
      ∃ s', merge_loop p1 p2 l0 l1 k i0 i1 j s = .done s' ∧
        (∀ p, (s'.buf p).length = (s.buf p).length) ∧
        ((l0 - i0) + (l1 - i1) = 0 → s' = s) ∧
        writes s'.log = writes s.log ++
          (List.range' j ((l0 - i0) + (l1 - i1))).map (fun t => (p2, t)) ∧
        ∃ evs, s'.log = s.log ++ evs ∧
          ∀ ev ∈ evs, ∃ line j i v, ev = Event.assign line p2 j p1 i v := by
  intro k
  induction k with
  | zero => intro i0 i1 j s _ _ _ _ hk; omega
  | succ k ih =>
    intro i0 i1 j s hl0 hl1 hdst hjW hk
    by_cases hm : 0 < (l0 - i0) + (l1 - i1)
    · obtain ⟨i0', i1', s1, hstep, hdec, hlen, hw, line, i, v, hlog⟩ :=
        merge_loop_step p1 p2 l0 l1 k i0 i1 j s h0W h1W hl0 hl1 (by have := hdst hm; omega) hm
      have ej : (j + 1) % W = j + 1 := Nat.mod_eq_of_lt (by omega)
      rw [ej] at hstep
      obtain ⟨s', hrun, hlen', _, hw', evs, hlog', hevs⟩ := ih i0' i1' (j + 1) s1
        (by rw [hlen]; exact hl0) (by rw [hlen]; exact hl1)
        (by intro _; rw [hlen]; have := hdst hm; omega) (by omega) (by omega)
      refine ⟨s', by rw [hstep, hrun], fun p => (hlen' p).trans (hlen p), by omega, ?_,
        Event.assign line p2 j p1 i v :: evs, ?_, ?_⟩
      · rw [hw', hw, ← hdec, List.range'_succ]
        simp
      · rw [hlog', hlog]
        simp
      · intro ev hev
        rcases List.mem_cons.mp hev with rfl | hev
        · exact ⟨line, j, i, v, rfl⟩
        · exact hevs ev hev
    · have hz : (l0 - i0) + (l1 - i1) = 0 := by omega
      refine ⟨s, ?_, fun _ => rfl, fun _ => rfl, ?_, [], by simp, by simp⟩
      · have h0 : ¬ i0 < l0 := by omega
        have h1 : ¬ i1 < l1 := by omega
        simp [merge_loop, h0, h1]
      · rw [hz]
        simp

/-- With the right run exhausted, the merge loop only executes the assignment of
line 28, copying `p1[i0 + t]` to `p2[j + t]`. -/
theorem merge_loop_drain_left {p1 p2 : Buf} (hne : p1 ≠ p2) (l0 l1 : Nat) (h0W : l0 < W) :
    ∀ (k i0 i1 j : Nat) (s : State),
      l1 ≤ i1 → l0 ≤ (s.buf p1).length → j + (l0 - i0) ≤ (s.buf p2).length →
      j + (l0 - i0) < W → l0 - i0 < k →
      ∃ s', merge_loop p1 p2 l0 l1 k i0 i1 j s = .done s' ∧
        s'.log = s.log ++ (List.range (l0 - i0)).map
          (fun t => Event.assign 28 p2 (j + t) p1 (i0 + t) ((s.buf p1).getD (i0 + t) 0)) := by
  intro k
  induction k with
  | zero => intro i0 i1 j s _ _ _ _ hk; omega
  | succ k ih =>
    intro i0 i1 j s h1 hl0 hdst hjW hk
    have hn1 : ¬ i1 < l1 := by omega
    by_cases h0 : i0 < l0
    · obtain ⟨x, hx⟩ := getElem?_of_lt (s.buf p1) (Nat.lt_of_lt_of_le h0 hl0)
      have e0 : (i0 + 1) % W = i0 + 1 := mod_W_succ h0 h0W
      have ej : (j + 1) % W = j + 1 := Nat.mod_eq_of_lt (by omega)
      obtain ⟨s1, ha, hb, hq, hl⟩ := assign_eq 28 p1 p2 i0 j x s hx (by omega)
      have hb1 : s1.buf p1 = s.buf p1 := hq p1 hne
      obtain ⟨s', hrun, hlog⟩ := ih (i0 + 1) i1 (j + 1) s1 h1 (by rw [hb1]; exact hl0)
        (by rw [hb, List.length_set]; omega) (by omega) (by omega)
      refine ⟨s', ?_, ?_⟩
      · simp [merge_loop, h0, hn1, ha, e0, ej, hrun]
      · have hc : l0 - i0 = (l0 - (i0 + 1)) + 1 := by omega
        rw [hlog, hl, hb1, hc, List.range_succ_eq_map]
        simp [hx, List.map_map, Function.comp_def, Nat.add_assoc, Nat.add_comm 1]
    · refine ⟨s, ?_, ?_⟩
      · simp [merge_loop, h0, hn1]
      · have : l0 - i0 = 0 := by omega
        simp [this]

/-! ## The calls and passes a run logs -/

/-- A call of `merge_engine` whose index computations do not wrap returns, having
logged its entry followed by assignments only, and keeps the lengths of the arrays. -/
theorem merge_engine_trace (p1 p2 : Buf) (fuel i0 span n : Nat) (s : State)
    (hW : i0 + 2 * span < W) (hn : n < W)
    (hsrc : Min.min (i0 + 2 * span) n ≤ (s.buf p1).length)
    (hdst : Min.min (i0 + 2 * span) n ≤ (s.buf p2).length)
    (hfuel : Min.min (i0 + 2 * span) n - Min.min i0 n < fuel) :
    ∃ s' evs, merge_engine fuel p1 p2 i0 span n s = .done s' ∧
      s'.log = s.log ++ Event.call p1 p2 i0 span n :: evs ∧
      (∀ ev ∈ evs, ∃ line j i v, ev = Event.assign line p2 j p1 i v) ∧
      (∀ p, (s'.buf p).length = (s.buf p).length) := by
  have e1 : (i0 + span) % W = i0 + span := Nat.mod_eq_of_lt (by omega)
  have e2 : (i0 + span + span) % W = i0 + 2 * span := by
    rw [Nat.mod_eq_of_lt (by omega)]
    omega
  obtain ⟨s', hrun, hlen, _, _, evs, hlog, hevs⟩ := merge_loop_total p1 p2
    (Min.min (i0 + span) n) (Min.min (i0 + 2 * span) n) (by omega) (by omega) fuel i0
    (i0 + span) i0 (s.emit (.call p1 p2 i0 span n)) (by simp; omega) (by simpa using hsrc)
    (by intro _; simp; omega) (by omega) (by omega)
  refine ⟨s', evs, ?_, ?_, hevs, ?_⟩
  · unfold merge_engine
    simp only [e1, e2, min_eq]
    exact hrun
  · rw [hlog]
    simp
  · intro p
    rw [hlen]
    simp

/-- What one pass logs: calls of `merge_engine` on the buffers of the pass, with the span
of the pass, at start indices below `n` from which two spans do not wrap, and their
assignments. -/
theorem mergesort_pass_trace (p1 p2 : Buf) (fuel span n : Nat)
    (hs : 0 < span) (hd : 2 * span ∣ 2 ^ 63) (hn : n ≤ 2 ^ 63) (hfuel : n < fuel) :
    ∀ (k i0 : Nat) (s : State),
      2 * span ∣ i0 → n ≤ (s.buf p1).length → n ≤ (s.buf p2).length → n - i0 < k →
      ∃ s' new, mergesort_pass fuel p1 p2 span n k i0 s = .done s' ∧
        s'.log = s.log ++ new ∧
        (∀ ev ∈ new, (∃ c, ev = Event.call p1 p2 c span n ∧ c < n ∧ c + 2 * span ≤ 2 ^ 63) ∨
          ∃ line j i v, ev = Event.assign line p2 j p1 i v) ∧
        (i0 < n → Event.call p1 p2 i0 span n ∈ new) ∧
        (∀ p, (s'.buf p).length = (s.buf p).length) := by
  have hW : W = 2 ^ 64 := rfl
  intro k
  induction k with
  | zero => intro i0 s _ _ _ hk; omega
  | succ k ih =>
    intro i0 s hdiv hsrc hdst hk
    by_cases h : i0 < n
    · have hstep : i0 + 2 * span ≤ 2 ^ 63 := step_le hdiv hd (by omega)
      obtain ⟨s1, evs, hrun, hlog, hevs, hlen⟩ := merge_engine_trace p1 p2 fuel i0 span n s
        (by omega) (by omega) (by omega) (by omega) (by omega)
      have e1 : (i0 + (2 * span) % W) % W = i0 + 2 * span := by
        rw [Nat.mod_eq_of_lt (a := 2 * span) (by omega), Nat.mod_eq_of_lt (by omega)]
      obtain ⟨s', new, hrun', hlog', hnew, _, hlen'⟩ := ih (i0 + 2 * span) s1
        (Dvd.dvd.add hdiv (dvd_refl _)) (by rw [hlen]; exact hsrc) (by rw [hlen]; exact hdst)
        (by omega)
      refine ⟨s', Event.call p1 p2 i0 span n :: evs ++ new, ?_, ?_, ?_, ?_, ?_⟩
      · simp [mergesort_pass, h, hrun, e1, hrun']
      · rw [hlog', hlog]
        simp
      · intro ev hev
        rcases List.mem_append.mp hev with hev | hev
        · rcases List.mem_cons.mp hev with rfl | hev
          · exact Or.inl ⟨i0, rfl, h, hstep⟩
          · exact Or.inr (hevs ev hev)
        · exact hnew ev hev
      · intro _
        simp
      · intro p
        rw [hlen', hlen]
    · refine ⟨s, [], ?_, by simp, by simp, fun h' => absurd h' h, fun _ => rfl⟩
      simp [mergesort_pass, h]

theorem passes_append (l1 l2 : List Event) : passes (l1 ++ l2) = passes l1 ++ passes l2 := by
  simp [passes, List.filterMap_append]

theorem passes_eq_nil (l : List Event)
    (h : ∀ ev ∈ l, (∃ q1 q2 c sp m, ev = Event.call q1 q2 c sp m) ∨
      ∃ line q2 j q1 i v, ev = Event.assign line q2 j q1 i v) : passes l = [] := by
  induction l with
  | nil => rfl
  | cons a l ih =>
    have ha := h a (List.mem_cons_self _ _)
    have hl := ih (fun ev hev => h ev (List.mem_cons_of_mem _ hev))
    rcases ha with ⟨q1, q2, c, sp, m, rfl⟩ | ⟨line, q2, j, q1, i, v, rfl⟩
    · simpa [passes, Event.passSpan] using hl
    · simpa [passes, Event.passSpan] using hl

theorem parity_shift {m : Nat} (p1 p2 pB : Buf) :
    ((Even (m + 1) ∧ p1 = pB) ∨ (Odd (m + 1) ∧ p2 = pB)) ↔
      ((Even m ∧ p2 = pB) ∨ (Odd m ∧ p1 = pB)) := by
  rw [Nat.even_add_one, Nat.odd_add_one, Nat.not_even_iff_odd, Nat.not_odd_iff_even]
  tauto

/-- What the outer loop and the copy back log, from a state in which `span = 2 ^ e`.
With `c = ⌈log₂ n⌉`: the passes are those of spans `2 ^ e, ..., 2 ^ (c - 1)`; every
call made by a pass has a span below `n` and arguments that do not wrap; the copy back
is called exactly when the buffer read last is `pB`, which depends on the parity of
`c - e`, and then both buffers agree on their first `n` elements. -/
theorem mergesort_loop_trace (fuel n : Nat) (pB : Buf) (hn : n < 2 ^ 63) (hfuel : n < fuel) :
    ∀ (k e : Nat) (p1 p2 : Buf) (s : State), p1 ≠ p2 →
      n ≤ (s.buf p1).length → n ≤ (s.buf p2).length → n - 2 ^ e < k →
      ∃ s' new, mergesort_loop fuel pB n k (2 ^ e) p1 p2 s = .done s' ∧
        s'.log = s.log ++ new ∧
        passes new = (List.range' e (Nat.clog 2 n - e)).map (2 ^ ·) ∧
        (∀ ev ∈ new,
          (∃ sp, ev = Event.pass sp ∧ sp < n ∧ sp * 2 < 2 ^ 64) ∨
          (∃ q1 q2 c sp, ev = Event.call q1 q2 c sp n ∧ sp < n ∧ c < n ∧
            c + 2 * sp ≤ 2 ^ 63) ∨
          (∃ q, ev = Event.call pB q 0 n n ∧
            ((Even (Nat.clog 2 n - e) ∧ p1 = pB) ∨ (Odd (Nat.clog 2 n - e) ∧ p2 = pB))) ∨
          (∃ line q2 j q1 i v, ev = Event.assign line q2 j q1 i v)) ∧
        (((Even (Nat.clog 2 n - e) ∧ p1 = pB) ∨ (Odd (Nat.clog 2 n - e) ∧ p2 = pB)) →
          ∃ q, q ≠ pB ∧ Event.call pB q 0 n n ∈ new ∧
            (s'.buf q).take n = (s'.buf pB).take n) := by
  have hW : W = 2 ^ 64 := rfl
  intro k
  induction k with
  | zero => intro e p1 p2 s _ _ _ hk; omega
  | succ k ih =>
    intro e p1 p2 s hne hl1 hl2 hk
    have hpos : 0 < 2 ^ e := Nat.two_pow_pos e
    by_cases hlt : 2 ^ e < n
    · have he : e < 63 := pow_lt_W_of_lt hlt hn
      have hec : e < Nat.clog 2 n := (Nat.pow_lt_iff_lt_clog (by norm_num)).mp hlt
      have hd : 2 * 2 ^ e ∣ 2 ^ 63 := by
        rw [← pow_succ']
        exact Nat.pow_dvd_pow 2 (by omega)
      have hle : 2 ^ (e + 1) ≤ 2 ^ 63 := Nat.pow_le_pow_right (by norm_num) (by omega)
      have hlt2 : 2 ^ (e + 1) = 2 * 2 ^ e := pow_succ' 2 e
      obtain ⟨s1, new1, hrun, hlog, hnew1, _, hlen⟩ := mergesort_pass_trace p1 p2 fuel (2 ^ e) n
        hpos hd (by omega) hfuel fuel 0 (s.emit (.pass (2 ^ e))) (dvd_zero _)
        (by simpa using hl1) (by simpa using hl2) (by omega)
      have e2 : (2 ^ e * 2) % W = 2 ^ (e + 1) := by
        rw [← pow_succ]
        exact Nat.mod_eq_of_lt (by omega)
      obtain ⟨s', new', hrun', hlog', hpass', hnew', hcb'⟩ := ih (e + 1) p2 p1 s1 hne.symm
        (by rw [hlen]; simpa using hl2) (by rw [hlen]; simpa using hl1) (by omega)
      have hc : Nat.clog 2 n - e = (Nat.clog 2 n - (e + 1)) + 1 := by omega
      have hshift := parity_shift (m := Nat.clog 2 n - (e + 1)) p1 p2 pB
      rw [← hc] at hshift
      refine ⟨s', Event.pass (2 ^ e) :: new1 ++ new', ?_, ?_, ?_, ?_, ?_⟩
      · simp [mergesort_loop, hlt, hrun, e2, hrun']
      · rw [hlog', hlog]
        simp
      · have h1 : passes new1 = [] := by
          apply passes_eq_nil
          intro ev hev
          rcases hnew1 ev hev with ⟨c, rfl, _, _⟩ | h
          · exact Or.inl ⟨_, _, _, _, _, rfl⟩
          · exact Or.inr (by
              obtain ⟨line, j, i, v, rfl⟩ := h
              exact ⟨_, _, _, _, _, _, rfl⟩)
        have : Event.pass (2 ^ e) :: new1 ++ new' = [Event.pass (2 ^ e)] ++ new1 ++ new' := by
          simp
        rw [this, passes_append, passes_append, h1, hpass', hc, List.range'_succ]
        simp [passes, Event.passSpan]
      · intro ev hev
        rcases List.mem_append.mp hev with hev | hev
        · rcases List.mem_cons.mp hev with rfl | hev
          · exact Or.inl ⟨2 ^ e, rfl, hlt, by omega⟩
          · rcases hnew1 ev hev with ⟨c, rfl, hcn, hcW⟩ | ⟨line, j, i, v, rfl⟩
            · exact Or.inr (Or.inl ⟨p1, p2, c, 2 ^ e, rfl, hlt, hcn, hcW⟩)
            · exact Or.inr (Or.inr (Or.inr ⟨_, _, _, _, _, _, rfl⟩))
        · rcases hnew' ev hev with h | h | ⟨q, rfl, hcb⟩ | h
          · exact Or.inl h
          · exact Or.inr (Or.inl h)
          · exact Or.inr (Or.inr (Or.inl ⟨q, rfl, hshift.mpr hcb⟩))
          · exact Or.inr (Or.inr (Or.inr h))
      · intro hcb
        obtain ⟨q, hq, hmem, hbuf⟩ := hcb' (hshift.mp hcb)
        exact ⟨q, hq, List.mem_append_right _ hmem, hbuf⟩
    · have hce : Nat.clog 2 n - e = 0 := by
        have : Nat.clog 2 n ≤ e := (Nat.le_pow_iff_clog_le (by norm_num)).mp (by omega)
        omega
      by_cases hp : p1 = pB
      · obtain ⟨s', evs, hrun, hlog, hevs, _⟩ := merge_engine_trace p1 p2 fuel 0 n n s
          (by omega) (by omega) (by omega) (by omega) (by omega)
        obtain ⟨s'', hrun2, hr1, hr2, _⟩ := copy_back_spec hne fuel n s hn hfuel hl1 hl2
        have hss : s'' = s' := by
          rw [hrun] at hrun2
          exact (Outcome.done.inj hrun2).symm
        subst hss
        refine ⟨s'', Event.call p1 p2 0 n n :: evs, ?_, hlog, ?_, ?_, ?_⟩
        · rw [mergesort_loop, if_neg hlt, if_pos hp]
          exact hrun
        · have h1 : passes evs = [] := by
            apply passes_eq_nil
            intro ev hev
            obtain ⟨line, j, i, v, rfl⟩ := hevs ev hev
            exact Or.inr ⟨_, _, _, _, _, _, rfl⟩
          have : Event.call p1 p2 0 n n :: evs = [Event.call p1 p2 0 n n] ++ evs := rfl
          rw [this, passes_append, h1, hce]
          simp [passes, Event.passSpan]
        · intro ev hev
          rcases List.mem_cons.mp hev with rfl | hev
          · refine Or.inr (Or.inr (Or.inl ⟨p2, by rw [hp], Or.inl ⟨?_, hp⟩⟩))
            rw [hce]
            exact even_zero
          · obtain ⟨line, j, i, v, rfl⟩ := hevs ev hev
            exact Or.inr (Or.inr (Or.inr ⟨_, _, _, _, _, _, rfl⟩))
        · intro _
          refine ⟨p2, fun h => hne (hp.trans h.symm), by rw [← hp]; simp, ?_⟩
          rw [← hp, hr2, hr1, List.take_left' (by rw [List.length_take]; omega)]
      · refine ⟨s, [], ?_, by simp, ?_, by simp, ?_⟩
        · simp [mergesort_loop, hlt, hp]
        · rw [hce]
          rfl
        · intro hcb
          rw [hce] at hcb
          rcases hcb with ⟨_, h⟩ | ⟨h, _⟩
          · exact absurd h hp
          · exact absurd h (by decide)

theorem calls_append (l1 l2 : List Event) : calls (l1 ++ l2) = calls l1 ++ calls l2 := by
  simp [calls, List.filter_append]

theorem calls_eq_nil (l : List Event)
    (h : ∀ ev ∈ l, ∃ line q2 j q1 i v, ev = Event.assign line q2 j q1 i v) : calls l = [] := by
  induction l with
  | nil => rfl
  | cons a l ih =>
    obtain ⟨line, q2, j, q1, i, v, rfl⟩ := h a (List.mem_cons_self _ _)
    have hl := ih (fun ev hev => h ev (List.mem_cons_of_mem _ hev))
    simpa [calls, Event.isCall] using hl

/-- The run of `mergesort` for `n = 2`: one pass with one call, then the copy back. -/
theorem mergesort_two_trace (pA pB : Buf) (f : Nat) (s : State)
    (hA : 2 ≤ (s.buf pA).length) (hB : 2 ≤ (s.buf pB).length) :
    ∃ s' evs1 evs2, mergesort (f + 3) pA pB 2 s = .done s' ∧
      s'.log = s.log ++ [Event.pass 1, Event.call pA pB 0 1 2] ++ evs1
        ++ [Event.call pB pA 0 2 2] ++ evs2 ∧
      (∀ ev ∈ evs1, ∃ line q2 j q1 i v, ev = Event.assign line q2 j q1 i v) ∧
      (∀ ev ∈ evs2, ∃ line q2 j q1 i v, ev = Event.assign line q2 j q1 i v) := by
  have hW : W = 2 ^ 64 := rfl
  have e1 : (0 + (2 * 1) % W) % W = 2 := by decide
  have e2 : (1 * 2) % W = 2 := by decide
  obtain ⟨s1, evs1, hrun1, hlog1, hevs1, hlen1⟩ := merge_engine_trace pA pB (f + 3) 0 1 2
    (s.emit (.pass 1)) (by omega) (by omega) (by simp; omega) (by simp; omega) (by omega)
  obtain ⟨s2, evs2, hrun2, hlog2, hevs2, _⟩ := merge_engine_trace pB pA (f + 3) 0 2 2 s1
    (by omega) (by omega) (by rw [hlen1]; simp; omega) (by rw [hlen1]; simp; omega)
    (by omega)
  refine ⟨s2, evs1, evs2, ?_, ?_, ?_, ?_⟩
  · have hpass : mergesort_pass (f + 3) pA pB 1 2 (f + 3) 0 (s.emit (.pass 1)) = .done s1 := by
      rw [mergesort_pass, if_pos (by omega), hrun1]
      simp only [e1]
      rw [mergesort_pass, if_neg (by omega)]
    rw [mergesort, mergesort_loop, if_pos (by omega), hpass]
    simp only [e2]
    rw [mergesort_loop, if_neg (by omega), if_pos rfl]
    exact hrun2
  · rw [hlog2, hlog1]
    simp
  · intro ev hev
    obtain ⟨line, j, i, v, rfl⟩ := hevs1 ev hev
    exact ⟨_, _, _, _, _, _, rfl⟩
  · intro ev hev
    obtain ⟨line, j, i, v, rfl⟩ := hevs2 ev hev
    exact ⟨_, _, _, _, _, _, rfl⟩

/-! ## Polling -/

/-- If read number `k0 + d` is the first from `k0` on to return 0, the polling loop
returns after exactly these `d + 1` reads. -/
theorem poll_loop_done (dev : Device) :
    ∀ (f k0 d : Nat) (s : State), dev.status (k0 + d) = 0 →
      (∀ i, i < d → dev.status (k0 + i) ≠ 0) → d < f →
      poll_loop dev f k0 s = .done (State.completed
        ⟨s.A, s.B, s.log ++ (List.range (d + 1)).map (fun i => Event.load 0 (dev.status (k0 + i)))⟩
        dev) := by
  intro f
  induction f with
  | zero => intro k0 d s _ _ hf; omega
  | succ f ih =>
    intro k0 d s hz hmin hf
    cases d with
    | zero =>
      have hz' : dev.status k0 = 0 := by simpa using hz
      simp [poll_loop, hz', State.emit, List.range_succ]
    | succ d =>
      have hnz : dev.status k0 ≠ 0 := by simpa using hmin 0 (by omega)
      have e : ∀ i, k0 + 1 + i = k0 + (i + 1) := fun i => by omega
      have := ih (k0 + 1) d (s.emit (.load 0 (dev.status k0)))
        (by rw [e]; exact hz) (fun i hi => by rw [e]; exact hmin (i + 1) (by omega)) (by omega)
      simp only [poll_loop, hnz, if_false]
      rw [this, List.range_succ_eq_map (d + 1)]
      simp [State.emit, List.map_map, Function.comp_def, e]

/-- While no read returns 0 the polling loop does not return. -/
theorem poll_loop_busy (dev : Device) :
    ∀ (f k0 : Nat) (s : State), (∀ i, i < f → dev.status (k0 + i) ≠ 0) →
      ∃ t, poll_loop dev f k0 s = .timeout t := by
  intro f
  induction f with
  | zero => intro k0 s _; exact ⟨s, rfl⟩
  | succ f ih =>
    intro k0 s h
    have hnz : dev.status k0 ≠ 0 := by simpa using h 0 (by omega)
    have e : ∀ i, k0 + 1 + i = k0 + (i + 1) := fun i => by omega
    obtain ⟨t, ht⟩ := ih (k0 + 1) (s.emit (.load 0 (dev.status k0)))
      (fun i hi => by rw [e]; exact h (i + 1) (by omega))
    exact ⟨t, by simp only [poll_loop, hnz, if_false]; exact ht⟩

theorem accelerated_done (fuel k : Nat) (dev : Device) (addr : Buf → Nat) (pA pB : Buf)
    (n : Nat) (s : State) (hz : dev.status k = 0) (hmin : ∀ i, i < k → dev.status i ≠ 0)
    (hf : k < fuel) :
    ∃ s', mergesort_accelerated fuel dev addr pA pB n s = .done s' ∧
      s'.log = s.log ++
        [.fence, .store 1 (addr pA), .store 2 (addr pB), .store 3 n, .store 0 1] ++
        (List.range (k + 1)).map (fun i => Event.load 0 (dev.status i)) ++ [.fence] := by
  have hp := poll_loop_done dev fuel 0 k
    (((((s.emit .fence).emit (.store 1 (addr pA))).emit (.store 2 (addr pB))).emit
      (.store 3 n)).emit (.store 0 1)) (by simpa using hz)
    (fun i hi => by simpa using hmin i hi) hf
  have hdef : mergesort_accelerated fuel dev addr pA pB n s =
      match poll_loop dev fuel 0 (((((s.emit .fence).emit (.store 1 (addr pA))).emit
        (.store 2 (addr pB))).emit (.store 3 n)).emit (.store 0 1)) with
      | .done s' => .done (s'.emit .fence)
      | o => o := rfl
  rw [hdef, hp]
  exact ⟨_, rfl, by simp [State.emit, State.completed]⟩

theorem accelerated_busy (fuel : Nat) (dev : Device) (addr : Buf → Nat) (pA pB : Buf)
    (n : Nat) (s : State) (h : ∀ i, i < fuel → dev.status i ≠ 0) :
    ∃ t, mergesort_accelerated fuel dev addr pA pB n s = .timeout t := by
  obtain ⟨t, ht⟩ := poll_loop_busy dev fuel 0
    (((((s.emit .fence).emit (.store 1 (addr pA))).emit (.store 2 (addr pB))).emit
      (.store 3 n)).emit (.store 0 1)) (fun i hi => by simpa using h i hi)
  have hdef : mergesort_accelerated fuel dev addr pA pB n s =
      match poll_loop dev fuel 0 (((((s.emit .fence).emit (.store 1 (addr pA))).emit
        (.store 2 (addr pB))).emit (.store 3 n)).emit (.store 0 1)) with
      | .done s' => .done (s'.emit .fence)
      | o => o := rfl
  rw [hdef, ht]
  exact ⟨t, rfl⟩

/-! ## The invariant of the outer loop -/

theorem slice_take_left (l : List Nat) (n a b : Nat) :
    slice (l.take n) a b = slice l a (Min.min b n) := by
  apply List.ext_getElem?
  intro t
  simp only [getElem?_slice, List.getElem?_take]
  by_cases h1 : t < b - a
  · by_cases h2 : a + t < n
    · rw [if_pos h1, if_pos h2, if_pos (by omega)]
    · rw [if_pos h1, if_neg h2, if_neg (by omega)]
  · rw [if_neg h1, if_neg (by omega)]

theorem blocksPerm_pass (span : Nat) (l l0 : List Nat) (hs : 0 < span)
    (h : BlocksPerm span l l0) : BlocksPerm (2 * span) (passList span l) l0 := by
  intro b
  rw [slice_block, slice_block, passList_drop_mul span hs, passList_take span _ hs]
  have hx := h (2 * b)
  rw [slice_block, slice_block] at hx
  have e : 2 * b * span = b * (2 * span) := by ring
  rw [e] at hx
  have hy := h (2 * b + 1)
  rw [slice_block, slice_block] at hy
  have e' : (2 * b + 1) * span = b * (2 * span) + span := by ring
  rw [e', ← List.drop_drop, ← List.drop_drop] at hy
  have ht : ∀ l' : List Nat, l'.take (2 * span) = l'.take span ++ (l'.drop span).take span :=
    fun l' => by rw [two_mul, List.take_add]
  refine (mergeRuns_perm _ _).trans ?_
  rw [ht]
  exact List.Perm.append hx hy

theorem clog_two_le_self (n : Nat) : Nat.clog 2 n ≤ n :=
  (Nat.le_pow_iff_clog_le (by norm_num)).mp (Nat.le_of_lt (Nat.lt_two_pow n))

/-- One iteration of the outer loop, from a state in which the runs of length `2 ^ e` of
the buffer read are sorted rearrangements of the original blocks: the loop continues
with the buffers swapped and the span doubled, and the same holds for runs of length
`2 ^ (e + 1)`. -/
theorem mergesort_loop_step (fuel n : Nat) (pB : Buf) (hn : n < 2 ^ 63) (hfuel : n < fuel)
    (l0 : List Nat) (k e : Nat) (p1 p2 : Buf) (s : State) (hne : p1 ≠ p2)
    (hl1 : n ≤ (s.buf p1).length) (hl2 : n ≤ (s.buf p2).length) (hlt : 2 ^ e < n)
    (hsorted : BlocksSorted (2 ^ e) ((s.buf p1).take n))
    (hblocks : BlocksPerm (2 ^ e) ((s.buf p1).take n) l0)
    (hperm : ((s.buf p1).take n).Perm l0) :
    ∃ s', mergesort_loop fuel pB n (k + 1) (2 ^ e) p1 p2 s
        = mergesort_loop fuel pB n k (2 ^ (e + 1)) p2 p1 s' ∧
      n ≤ (s'.buf p2).length ∧ n ≤ (s'.buf p1).length ∧
      BlocksSorted (2 ^ (e + 1)) ((s'.buf p2).take n) ∧
      BlocksPerm (2 ^ (e + 1)) ((s'.buf p2).take n) l0 ∧
      ((s'.buf p2).take n).Perm l0 := by
  have hpos : 0 < 2 ^ e := Nat.two_pow_pos e
  have hW : (2 : Nat) ^ 63 < W := by unfold W; norm_num
  have he : e < 63 := pow_lt_W_of_lt hlt hn
  have hd : 2 * 2 ^ e ∣ 2 ^ 63 := by
    rw [← pow_succ']
    exact Nat.pow_dvd_pow 2 (by omega)
  obtain ⟨s1, hrun, hr1, hr2, _⟩ := mergesort_pass_spec hne fuel (2 ^ e) n hpos hd
    (by omega) hfuel fuel 0 (s.emit (.pass (2 ^ e))) [] (s.buf p2) (dvd_zero _)
    (by simpa using hl1) (by simp) (by simp) (by simpa using hl2) (by omega)
  have hb2 : s1.buf p2 = passList (2 ^ e) ((s.buf p1).take n) ++ (s.buf p2).drop n := by
    rw [hr2]
    simp [slice_zero]
  have hb1 : s1.buf p1 = s.buf p1 := by simpa using hr1
  have hlenp : (passList (2 ^ e) ((s.buf p1).take n)).length = n := by
    rw [length_passList, List.length_take]
    omega
  have htake : (s1.buf p2).take n = passList (2 ^ e) ((s.buf p1).take n) := by
    rw [hb2, List.take_left' hlenp]
  have hlen2 : (s1.buf p2).length = (s.buf p2).length := by
    rw [hb2, List.length_append, hlenp, List.length_drop]
    omega
  have e2 : (2 ^ e * 2) % W = 2 ^ (e + 1) := by
    rw [← pow_succ]
    apply Nat.mod_eq_of_lt
    have : 2 ^ (e + 1) ≤ 2 ^ 63 := Nat.pow_le_pow_right (by norm_num) (by omega)
    omega
  have hlt2 : 2 ^ (e + 1) = 2 * 2 ^ e := pow_succ' 2 e
  refine ⟨s1, ?_, by omega, by rw [hb1]; exact hl1, ?_, ?_, ?_⟩
  · rw [mergesort_loop, if_pos hlt, hrun]
    simp only [e2]
  · rw [htake, hlt2]
    exact blocksSorted_pass _ _ hpos hsorted
  · rw [htake, hlt2]
    exact blocksPerm_pass _ _ _ hpos hblocks
  · rw [htake]
    exact (passList_perm _ _ _ (Nat.le_refl _)).trans hperm

/-- The run of `mergesort` goes through the loop state reached after `m` passes, for
every `m` up to the number `⌈log₂ n⌉` of passes, and the invariant holds there. -/
theorem mergesort_reaches (pA pB : Buf) (fuel n : Nat) (s : State)
    (hne : pA ≠ pB) (hn : n < 2 ^ 63)
    (hA : n ≤ (s.buf pA).length) (hB : n ≤ (s.buf pB).length) (hfuel : n < fuel) :
    ∀ m, m ≤ Nat.clog 2 n → ∃ (t : State) (p1 p2 : Buf),
      mergesort fuel pA pB n s = mergesort_loop fuel pB n (fuel - m) (2 ^ m) p1 p2 t ∧
      p1 ≠ p2 ∧ n ≤ (t.buf p1).length ∧ n ≤ (t.buf p2).length ∧
      BlocksSorted (2 ^ m) ((t.buf p1).take n) ∧
      BlocksPerm (2 ^ m) ((t.buf p1).take n) ((s.buf pA).take n) ∧
      ((t.buf p1).take n).Perm ((s.buf pA).take n) := by
  intro m
  induction m with
  | zero =>
    intro _
    refine ⟨s, pA, pB, by simp [mergesort], hne, hA, hB, ?_, fun _ => List.Perm.refl _,
      List.Perm.refl _⟩
    simpa using blocksSorted_one _
  | succ m ih =>
    intro hm
    obtain ⟨t, p1, p2, hrun, hne', hl1, hl2, hsorted, hblocks, hperm⟩ := ih (by omega)
    have hlt : 2 ^ m < n := (Nat.pow_lt_iff_lt_clog (by norm_num)).mpr (by omega)
    have hc := clog_two_le_self n
    obtain ⟨t', hstep, hl2', hl1', hs', hb', hp'⟩ := mergesort_loop_step fuel n pB hn hfuel
      ((s.buf pA).take n) (fuel - (m + 1)) m p1 p2 t hne' hl1 hl2 hlt hsorted hblocks hperm
    have ek : fuel - m = (fuel - (m + 1)) + 1 := by omega
    rw [ek, hstep] at hrun
    exact ⟨t', p2, p1, hrun, hne'.symm, hl2', hl1', hs', hb', hp'⟩

/-! ## Claims -/

/-- C1: for every `n < 2 ^ 63` and all contents of two distinct buffers of capacity at
least `n`, `mergesort` returns (for every iteration budget above `n`) and the first `n`
elements of the caller's buffer `pA` are then non-decreasing and a permutation of the
original first `n` elements, whatever the parity of the number of passes. -/
theorem mergesort_sorts (pA pB : Buf) (fuel n : Nat) (s : State)
    (hne : pA ≠ pB) (hn : n < 2 ^ 63)
    (hA : n ≤ (s.buf pA).length) (hB : n ≤ (s.buf pB).length) (hfuel : n < fuel) :
    ∃ s', mergesort fuel pA pB n s = .done s' ∧
      ((s'.buf pA).take n).Sorted (· ≤ ·) ∧
      ((s'.buf pA).take n).Perm ((s.buf pA).take n) := by
  obtain ⟨s', hrun, hs, hp, _, _⟩ := mergesort_spec hne fuel n s hn hfuel hA hB
  exact ⟨s', hrun, hs, hp⟩

theorem mergesort_sorts_witness :
    Buf.A ≠ Buf.B ∧ 3 < 2 ^ 63 ∧
    (∃ s', mergesort 4 .A .B 3 ⟨[3, 1, 2], [0, 0, 0], []⟩ = .done s' ∧
      ((s'.buf .A).take 3).Sorted (· ≤ ·) ∧
      ((s'.buf .A).take 3).Perm ((State.buf ⟨[3, 1, 2], [0, 0, 0], []⟩ .A).take 3)) :=
  ⟨by decide, by norm_num,
    mergesort_sorts .A .B 4 3 ⟨[3, 1, 2], [0, 0, 0], []⟩ (by decide) (by norm_num)
      (by decide) (by decide) (by decide)⟩

/-- C2: for distinct buffers, `i0 < n`, `span ≥ 1` and `i0 + 2 * span < 2 ^ 64`, if the two
clipped runs of the source are non-decreasing then `merge_engine` returns and the segment
`[i0, min (i0 + 2 * span) n)` of the destination is non-decreasing and a permutation of
the same segment of the source. -/
theorem merge_engine_merges (p1 p2 : Buf) (fuel i0 span n : Nat) (s : State)
    (hne : p1 ≠ p2) (hi0 : i0 < n) (hspan : 1 ≤ span) (hW : i0 + 2 * span < 2 ^ 64)
    (hn : n < 2 ^ 64)
    (hsrc : min (i0 + 2 * span) n ≤ (s.buf p1).length)
    (hdst : min (i0 + 2 * span) n ≤ (s.buf p2).length)
    (hfuel : min (i0 + 2 * span) n - i0 < fuel)
    (hleft : (slice (s.buf p1) i0 (min (i0 + span) n)).Sorted (· ≤ ·))
    (hright : (slice (s.buf p1) (min (i0 + span) n) (min (i0 + 2 * span) n)).Sorted (· ≤ ·)) :
    ∃ s', merge_engine fuel p1 p2 i0 span n s = .done s' ∧
      (slice (s'.buf p2) i0 (min (i0 + 2 * span) n)).Sorted (· ≤ ·) ∧
      (slice (s'.buf p2) i0 (min (i0 + 2 * span) n)).Perm
        (slice (s.buf p1) i0 (min (i0 + 2 * span) n)) := by
  rw [min_eq] at hsrc hdst hfuel hleft
  rw [min_eq, min_eq] at hright
  simp only [min_eq]
  have hWW : W = 2 ^ 64 := rfl
  obtain ⟨s', hrun, _, hr2, _⟩ := merge_engine_spec hne fuel i0 span n s
    (by omega) (by omega) (by omega) hsrc hdst hfuel
  have hr : slice (s.buf p1) (i0 + span) (Min.min (i0 + 2 * span) n)
      = slice (s.buf p1) (Min.min (i0 + span) n) (Min.min (i0 + 2 * span) n) := by
    by_cases h : i0 + span ≤ n
    · rw [Nat.min_eq_left h]
    · rw [slice_empty _ _ _ (by omega), slice_empty _ _ _ (by omega)]
  have hlen : (mergeRuns (slice (s.buf p1) i0 (Min.min (i0 + span) n))
      (slice (s.buf p1) (i0 + span) (Min.min (i0 + 2 * span) n))).length
      = Min.min (i0 + 2 * span) n - i0 := by
    rw [length_mergeRuns, length_slice _ _ _ (by omega), length_slice _ _ _ (by omega)]
    omega
  have hseg : slice (s'.buf p2) i0 (Min.min (i0 + 2 * span) n)
      = mergeRuns (slice (s.buf p1) i0 (Min.min (i0 + span) n))
        (slice (s.buf p1) (i0 + span) (Min.min (i0 + 2 * span) n)) := by
    rw [hr2]
    exact slice_middle _ _ _ _ _ (by rw [List.length_take]; omega) hlen
  refine ⟨s', hrun, ?_, ?_⟩
  · rw [hseg]
    exact mergeRuns_sorted _ _ hleft (by rw [hr]; exact hright)
  · rw [hseg, hr]
    refine (mergeRuns_perm _ _).trans ?_
    rw [slice_append _ _ _ _ (by omega) (by omega)]

theorem merge_engine_merges_witness :
    Buf.A ≠ Buf.B ∧ 0 < 3 ∧ 1 ≤ 2 ∧ 0 + 2 * 2 < 2 ^ 64 ∧ 3 < 2 ^ 64 ∧
    (∃ s', merge_engine 4 .A .B 0 2 3 ⟨[2, 5, 3], [0, 0, 0], []⟩ = .done s' ∧
      (slice (s'.buf .B) 0 (min (0 + 2 * 2) 3)).Sorted (· ≤ ·) ∧
      (slice (s'.buf .B) 0 (min (0 + 2 * 2) 3)).Perm
        (slice (State.buf ⟨[2, 5, 3], [0, 0, 0], []⟩ .A) 0 (min (0 + 2 * 2) 3))) :=
  ⟨by decide, by decide, by decide, by norm_num, by norm_num,
    merge_engine_merges .A .B 4 0 2 3 ⟨[2, 5, 3], [0, 0, 0], []⟩ (by decide) (by decide)
      (by decide) (by norm_num) (by norm_num) (by decide) (by decide) (by decide)
      (by decide) (by decide)⟩

/-- C3: whenever `mergesort` returns on an input, `mergesort_accelerated` run on a copy
of the same input against the accelerator (modelled from the specification, with any
latency below the polling budget) returns too, with identical contents in both arrays;
the two buffers have distinct addresses. -/
theorem accelerated_eq_software (addr : Buf → Nat) (pA pB : Buf)
    (n budget latency fuel : Nat) (A B : List Nat) (s1 : State)
    (haddr : addr .A ≠ addr .B)
    (hsw : mergesort budget pA pB n ⟨A, B, []⟩ = .done s1)
    (hfuel : latency < fuel) :
    ∃ s2, mergesort_accelerated fuel (accelerator addr latency budget) addr pA pB n
        ⟨A, B, []⟩ = .done s2 ∧ s2.A = s1.A ∧ s2.B = s1.B := by
  obtain ⟨s', hrun, hA, hB, hreg⟩ := poll_loop_accelerator addr latency budget fuel 0
    (((((State.mk A B []).emit .fence).emit (.store 1 (addr pA))).emit
      (.store 2 (addr pB))).emit (.store 3 n) |>.emit (.store 0 1)) (by omega) (by omega)
  have h1 : s'.reg 1 = addr pA := by rw [hreg]; simp [State.reg, State.emit]
  have h2 : s'.reg 2 = addr pB := by rw [hreg]; simp [State.reg, State.emit]
  have h3 : s'.reg 3 = n := by rw [hreg]; simp [State.reg, State.emit]
  have hA' : s'.A = A := hA
  have hB' : s'.B = B := hB
  have hmem : (accelerator addr latency budget).memory (s'.reg 1) (s'.reg 2) (s'.reg 3)
      (s'.A, s'.B) = (s1.A, s1.B) := by
    rw [h1, h2, h3, hA', hB']
    simp only [accelerator, decode_addr addr haddr, hsw]
  refine ⟨(s'.completed (accelerator addr latency budget)).emit .fence, ?_, ?_, ?_⟩
  · unfold mergesort_accelerated
    simp only [hrun]
  · simp [State.emit, State.completed, hmem]
  · simp [State.emit, State.completed, hmem]

theorem accelerated_eq_software_witness :
    (fun p => match p with | Buf.A => 4096 | Buf.B => 8192) Buf.A ≠
      (fun p => match p with | Buf.A => 4096 | Buf.B => 8192) Buf.B ∧
    mergesort 4 .A .B 3 ⟨[3, 1, 2], [0, 0, 0], []⟩ =
      .done ⟨[1, 2, 3], [1, 3, 2],
        [.pass 1, .call .A .B 0 1 3, .assign 26 .B 0 .A 1 1, .assign 28 .B 1 .A 0 3,
          .call .A .B 2 1 3, .assign 28 .B 2 .A 2 2,
          .pass 2, .call .B .A 0 2 3, .assign 24 .A 0 .B 0 1, .assign 26 .A 1 .B 2 2,
          .assign 28 .A 2 .B 1 3]⟩ ∧
    2 < 5 ∧
    (∃ s2, mergesort_accelerated 5
        (accelerator (fun p => match p with | Buf.A => 4096 | Buf.B => 8192) 2 4)
        (fun p => match p with | Buf.A => 4096 | Buf.B => 8192) .A .B 3
        ⟨[3, 1, 2], [0, 0, 0], []⟩ = .done s2 ∧
      s2.A = [1, 2, 3] ∧ s2.B = [1, 3, 2]) :=
  ⟨by decide, by decide, by decide,
    accelerated_eq_software (fun p => match p with | Buf.A => 4096 | Buf.B => 8192) .A .B
      3 4 2 5 [3, 1, 2] [0, 0, 0]
      ⟨[1, 2, 3], [1, 3, 2],
        [.pass 1, .call .A .B 0 1 3, .assign 26 .B 0 .A 1 1, .assign 28 .B 1 .A 0 3,
          .call .A .B 2 1 3, .assign 28 .B 2 .A 2 2,
          .pass 2, .call .B .A 0 2 3, .assign 24 .A 0 .B 0 1, .assign 26 .A 1 .B 2 2,
          .assign 28 .A 2 .B 1 3]⟩
      (by decide) (by decide) (by decide)⟩

/-- C4: whatever the device, the arguments and the iteration budget, the log of
`mergesort_accelerated` continues the initial log with a fence, then the four register
writes word 1 := address of `pA`, word 2 := address of `pB`, word 3 := `n`, word 0 := 1,
in this order; everything logged after them is a read of word 0 or a fence (no register
is written again), and the first thing after them, when there is one, is a read of
word 0. -/
theorem accelerated_programs_registers (fuel : Nat) (dev : Device) (addr : Buf → Nat)
    (pA pB : Buf) (n : Nat) (s : State) :
    ∃ rest, (mergesort_accelerated fuel dev addr pA pB n s).state.log =
        s.log ++ [.fence, .store 1 (addr pA), .store 2 (addr pB), .store 3 n, .store 0 1]
          ++ rest ∧
      (∀ e ∈ rest, e = Event.fence ∨ ∃ v, e = Event.load 0 v) ∧
      ((fuel = 0 ∧ rest = []) ∨ ∃ rest', rest = Event.load 0 (dev.status 0) :: rest') := by
  have hdef : mergesort_accelerated fuel dev addr pA pB n s =
      match poll_loop dev fuel 0 (((((s.emit .fence).emit (.store 1 (addr pA))).emit
        (.store 2 (addr pB))).emit (.store 3 n)).emit (.store 0 1)) with
      | .done s' => .done (s'.emit .fence)
      | o => o := rfl
  obtain ⟨rest, h1, h2, h3⟩ := poll_loop_log dev fuel 0
    (((((s.emit .fence).emit (.store 1 (addr pA))).emit (.store 2 (addr pB))).emit
      (.store 3 n)).emit (.store 0 1))
  have hlog : (((((s.emit .fence).emit (.store 1 (addr pA))).emit (.store 2 (addr pB))).emit
      (.store 3 n)).emit (.store 0 1)).log
      = s.log ++ [.fence, .store 1 (addr pA), .store 2 (addr pB), .store 3 n, .store 0 1] := by
    simp
  rw [hlog] at h1
  rw [hdef]
  cases hp : poll_loop dev fuel 0 (((((s.emit .fence).emit (.store 1 (addr pA))).emit
      (.store 2 (addr pB))).emit (.store 3 n)).emit (.store 0 1)) with
  | done s' =>
    rw [hp] at h1
    refine ⟨rest ++ [.fence], ?_, ?_, ?_⟩
    · simp only [Outcome.state, log_emit]
      simp only [Outcome.state] at h1
      rw [h1, List.append_assoc]
    · intro e he
      rcases List.mem_append.mp he with he | he
      · exact Or.inr (h2 e he)
      · exact Or.inl (by simpa using he)
    · rcases h3 with ⟨hf, _⟩ | ⟨rest', hr⟩
      · subst hf
        simp [poll_loop] at hp
      · exact Or.inr ⟨rest' ++ [.fence], by rw [hr]; rfl⟩
  | fault s' =>
    rw [hp] at h1
    exact ⟨rest, h1, fun e he => Or.inr (h2 e he), h3⟩
  | timeout s' =>
    rw [hp] at h1
    exact ⟨rest, h1, fun e he => Or.inr (h2 e he), h3⟩

/-- C5: for `n = 0` and for `n = 1`, on distinct buffers, `mergesort` returns with the
state unchanged: both arrays keep their contents and nothing is logged, so no pass of
the outer loop is executed and `merge_engine` is never called, not even for the copy
back. -/
theorem mergesort_trivial (pA pB : Buf) (fuel n : Nat) (s : State)
    (hne : pA ≠ pB) (hn : n = 0 ∨ n = 1) (hfuel : 0 < fuel) :
    mergesort fuel pA pB n s = .done s := by
  obtain ⟨k, rfl⟩ : ∃ k, fuel = k + 1 := ⟨fuel - 1, by omega⟩
  have h1 : ¬ (1 < n) := by omega
  rw [mergesort, mergesort_loop, if_neg h1, if_neg hne]

theorem mergesort_trivial_witness :
    Buf.A ≠ Buf.B ∧ ((1 : Nat) = 0 ∨ (1 : Nat) = 1) ∧ 0 < 1 ∧
    mergesort 1 .A .B 1 ⟨[7], [9], []⟩ = .done ⟨[7], [9], []⟩ :=
  ⟨by decide, by decide, by decide,
    mergesort_trivial .A .B 1 1 ⟨[7], [9], []⟩ (by decide) (by decide) (by decide)⟩

/-- C6 at `n = 0`: the bound `n - 1` of the checking loop of `run` wraps to `2 ^ 64 - 1`,
so the check compares `pA[0]` with `pA[1]` although no element is in range: on
`A = [5, 3]` it reports the pair `(0, 1)` out of order and then reads `pA[2]`, outside
the array, whatever the budget (at least 2), the device and the addresses. -/
theorem run_zero_check (k : Nat) (dev : Device) (addr : Buf → Nat) :
    run (k + 2) dev addr false .A .B 0 ⟨[5, 3], [0, 0], []⟩ =
      .fault ⟨[5, 3], [0, 0], [.error 0]⟩ := by
  have e0 : (0 + W - 1) % W = W - 1 := by decide
  have e1 : (0 + 1) % W = 1 := by decide
  have e2 : (1 + 1) % W = 2 := by decide
  have h0 : 0 < W - 1 := by decide
  have h1 : 1 < W - 1 := by decide
  simp [run, load_loop, mergesort, mergesort_loop, verify_loop, e0, e1, e2, h0, h1,
    State.read, State.buf, State.emit]

/-- C7: for `n < 2 ^ 63` on distinct buffers, `mergesort` leaves a buffer whose first
`n` elements are already non-decreasing equal to its input, element for element; and
for any input, a second `mergesort` after the first leaves the buffer as the first
left it. -/
theorem mergesort_idempotent (pA pB : Buf) (fuel n : Nat) (s : State)
    (hne : pA ≠ pB) (hn : n < 2 ^ 63)
    (hA : n ≤ (s.buf pA).length) (hB : n ≤ (s.buf pB).length) (hfuel : n < fuel) :
    (((s.buf pA).take n).Sorted (· ≤ ·) →
      ∃ s', mergesort fuel pA pB n s = .done s' ∧ s'.buf pA = s.buf pA) ∧
    (∃ s1 s2, mergesort fuel pA pB n s = .done s1 ∧ mergesort fuel pA pB n s1 = .done s2 ∧
      s2.buf pA = s1.buf pA) := by
  have key : ∀ t : State, n ≤ (t.buf pA).length → n ≤ (t.buf pB).length →
      ((t.buf pA).take n).Sorted (· ≤ ·) →
      ∃ t', mergesort fuel pA pB n t = .done t' ∧ t'.buf pA = t.buf pA := by
    intro t htA htB hsorted
    obtain ⟨t', hrun, hs, hp, hfr, _⟩ := mergesort_spec hne fuel n t hn hfuel htA htB
    refine ⟨t', hrun, ?_⟩
    have htake : (t'.buf pA).take n = (t.buf pA).take n :=
      List.eq_of_perm_of_sorted hp hs hsorted
    rw [← List.take_append_drop n (t'.buf pA), htake, hfr pA, List.take_append_drop]
  refine ⟨key s hA hB, ?_⟩
  obtain ⟨s1, hrun, hs, _, _, hlen⟩ := mergesort_spec hne fuel n s hn hfuel hA hB
  obtain ⟨s2, hrun2, heq⟩ := key s1 (by rw [hlen]; exact hA) (by rw [hlen]; exact hB) hs
  exact ⟨s1, s2, hrun, hrun2, heq⟩

theorem mergesort_idempotent_witness :
    Buf.A ≠ Buf.B ∧ 3 < 2 ^ 63 ∧
    ((((State.buf ⟨[1, 2, 2], [0, 0, 0], []⟩ .A).take 3).Sorted (· ≤ ·) →
      ∃ s', mergesort 4 .A .B 3 ⟨[1, 2, 2], [0, 0, 0], []⟩ = .done s' ∧
        s'.buf .A = State.buf ⟨[1, 2, 2], [0, 0, 0], []⟩ .A) ∧
    (∃ s1 s2, mergesort 4 .A .B 3 ⟨[1, 2, 2], [0, 0, 0], []⟩ = .done s1 ∧
      mergesort 4 .A .B 3 s1 = .done s2 ∧ s2.buf .A = s1.buf .A)) :=
  ⟨by decide, by norm_num,
    mergesort_idempotent .A .B 4 3 ⟨[1, 2, 2], [0, 0, 0], []⟩ (by decide) (by norm_num)
      (by decide) (by decide) (by decide)⟩

/-- C8: for distinct buffers, `i0 < n`, `span ≥ 1` and `i0 + 2 * span < 2 ^ 64`,
`merge_engine` returns with the source unchanged and the destination unchanged at every
index outside `[i0, min (i0 + 2 * span) n)`, and the array writes it performs are, in
order, one write to each index of that range of the destination and nothing else. -/
theorem merge_engine_frame (p1 p2 : Buf) (fuel i0 span n : Nat) (s : State)
    (hne : p1 ≠ p2) (hi0 : i0 < n) (hspan : 1 ≤ span) (hW : i0 + 2 * span < 2 ^ 64)
    (hn : n < 2 ^ 64)
    (hsrc : min (i0 + 2 * span) n ≤ (s.buf p1).length)
    (hdst : min (i0 + 2 * span) n ≤ (s.buf p2).length)
    (hfuel : min (i0 + 2 * span) n - i0 < fuel) :
    ∃ s', merge_engine fuel p1 p2 i0 span n s = .done s' ∧
      s'.buf p1 = s.buf p1 ∧
      (∀ k, k < i0 ∨ min (i0 + 2 * span) n ≤ k → (s'.buf p2)[k]? = (s.buf p2)[k]?) ∧
      writes s'.log = writes s.log ++
        (List.range' i0 (min (i0 + 2 * span) n - i0)).map (fun k => (p2, k)) := by
  rw [min_eq] at hsrc hdst hfuel
  simp only [min_eq]
  have hWW : W = 2 ^ 64 := rfl
  obtain ⟨s', hrun, hr1, hr2, hr3⟩ := merge_engine_spec hne fuel i0 span n s
    (by omega) (by omega) (by omega) hsrc hdst hfuel
  have hlen : (mergeRuns (slice (s.buf p1) i0 (Min.min (i0 + span) n))
      (slice (s.buf p1) (i0 + span) (Min.min (i0 + 2 * span) n))).length
      = Min.min (i0 + 2 * span) n - i0 := by
    rw [length_mergeRuns, length_slice _ _ _ (by omega), length_slice _ _ _ (by omega)]
    omega
  refine ⟨s', hrun, hr1, ?_, hr3⟩
  intro k hk
  rw [hr2]
  exact getElem?_frame _ _ _ _ _ hdst (by omega) hlen hk

theorem merge_engine_frame_witness :
    Buf.A ≠ Buf.B ∧ 2 < 5 ∧ 1 ≤ 1 ∧ 2 + 2 * 1 < 2 ^ 64 ∧ 5 < 2 ^ 64 ∧
    (∃ s', merge_engine 3 .A .B 2 1 5 ⟨[4, 3, 2, 1, 0], [9, 9, 9, 9, 9], []⟩ = .done s' ∧
      s'.buf .A = State.buf ⟨[4, 3, 2, 1, 0], [9, 9, 9, 9, 9], []⟩ .A ∧
      (∀ k, k < 2 ∨ min (2 + 2 * 1) 5 ≤ k →
        (s'.buf .B)[k]? = (State.buf ⟨[4, 3, 2, 1, 0], [9, 9, 9, 9, 9], []⟩ .B)[k]?) ∧
      writes s'.log = writes (State.log ⟨[4, 3, 2, 1, 0], [9, 9, 9, 9, 9], []⟩) ++
        (List.range' 2 (min (2 + 2 * 1) 5 - 2)).map (fun k => (Buf.B, k))) :=
  ⟨by decide, by decide, by decide, by norm_num, by norm_num,
    merge_engine_frame .A .B 3 2 1 5 ⟨[4, 3, 2, 1, 0], [9, 9, 9, 9, 9], []⟩ (by decide)
      (by decide) (by decide) (by norm_num) (by norm_num) (by decide) (by decide)
      (by decide)⟩

/-- C9: for `n < 2 ^ 63`, with the two distinct buffers modelled as sequences of length
exactly `n` and checked indexing, no run of `mergesort` reaches an out-of-bounds access,
whatever the iteration budget, and every run with a budget above `n` returns: all array
reads and writes, in every `merge_engine` call including the copy back, use an index
below `n`. -/
theorem mergesort_index_safe (pA pB : Buf) (n : Nat) (s : State)
    (hne : pA ≠ pB) (hn : n < 2 ^ 63)
    (hA : (s.buf pA).length = n) (hB : (s.buf pB).length = n) :
    (∀ fuel t, mergesort fuel pA pB n s ≠ .fault t) ∧
    (∀ fuel, n < fuel → ∃ s', mergesort fuel pA pB n s = .done s') := by
  have hdone : ∀ fuel, n < fuel → ∃ s', mergesort fuel pA pB n s = .done s' := by
    intro fuel hfuel
    obtain ⟨s', hrun, _⟩ := mergesort_spec hne fuel n s hn hfuel (by omega) (by omega)
    exact ⟨s', hrun⟩
  refine ⟨?_, hdone⟩
  intro fuel t hfault
  have h1 := mergesort_mono fuel (n + 1) pA pB n s _ hfault (by simp)
  obtain ⟨s', h2⟩ := hdone (fuel + (n + 1)) (by omega)
  rw [h1] at h2
  simp at h2

theorem mergesort_index_safe_witness :
    Buf.A ≠ Buf.B ∧ 5 < 2 ^ 63 ∧
    (State.buf ⟨[4, 3, 2, 1, 0], [0, 0, 0, 0, 0], []⟩ .A).length = 5 ∧
    (State.buf ⟨[4, 3, 2, 1, 0], [0, 0, 0, 0, 0], []⟩ .B).length = 5 ∧
    ((∀ fuel t, mergesort fuel .A .B 5 ⟨[4, 3, 2, 1, 0], [0, 0, 0, 0, 0], []⟩ ≠ .fault t) ∧
    (∀ fuel, 5 < fuel →
      ∃ s', mergesort fuel .A .B 5 ⟨[4, 3, 2, 1, 0], [0, 0, 0, 0, 0], []⟩ = .done s')) :=
  ⟨by decide, by norm_num, by decide, by decide,
    mergesort_index_safe .A .B 5 ⟨[4, 3, 2, 1, 0], [0, 0, 0, 0, 0], []⟩ (by decide)
      (by norm_num) (by decide) (by decide)⟩

/-- C10 (as the code has it): in the loop of `merge_engine`, when both read cursors are
within their limits and the two candidate elements are equal, the iteration executes the
assignment of line 26, `p2[j] = p1[i1]`: the element of the right run is the one copied
and the right cursor is the one advanced, the left cursor staying where it is. -/
theorem tie_takes_right (p1 p2 : Buf) (i0_lim i1_lim k i0 i1 j x : Nat) (s : State)
    (h0 : i0 < i0_lim) (h1 : i1 < i1_lim)
    (hx : s.read p1 i0 = some x) (hy : s.read p1 i1 = some x)
    (hj : j < (s.buf p2).length) :
    ∃ s1, assign 26 p1 p2 i1 j s = some s1 ∧
      s1.log = s.log ++ [.assign 26 p2 j p1 i1 x] ∧
      merge_loop p1 p2 i0_lim i1_lim (k + 1) i0 i1 j s =
        merge_loop p1 p2 i0_lim i1_lim k i0 ((i1 + 1) % W) ((j + 1) % W) s1 := by
  obtain ⟨s1, ha, _, _, hl⟩ := assign_eq 26 p1 p2 i1 j x s hy hj
  refine ⟨s1, ha, hl, ?_⟩
  simp [merge_loop, h0, h1, hx, hy, ha]

theorem tie_takes_right_witness :
    0 < 1 ∧ 1 < 2 ∧
    State.read ⟨[7, 7], [0, 0], []⟩ .A 0 = some 7 ∧
    State.read ⟨[7, 7], [0, 0], []⟩ .A 1 = some 7 ∧
    0 < (State.buf ⟨[7, 7], [0, 0], []⟩ .B).length ∧
    (∃ s1, assign 26 .A .B 1 0 ⟨[7, 7], [0, 0], []⟩ = some s1 ∧
      s1.log = State.log ⟨[7, 7], [0, 0], []⟩ ++ [.assign 26 .B 0 .A 1 7] ∧
      merge_loop .A .B 1 2 (2 + 1) 0 1 0 ⟨[7, 7], [0, 0], []⟩ =
        merge_loop .A .B 1 2 2 0 ((1 + 1) % W) ((0 + 1) % W) s1) :=
  ⟨by decide, by decide, by decide, by decide, by decide,
    tie_takes_right .A .B 1 2 2 0 1 0 7 ⟨[7, 7], [0, 0], []⟩ (by decide) (by decide)
      (by decide) (by decide) (by decide)⟩

/-- C10 as stated fails: merging the runs `[7]` and `[7]` of `A = [7, 7]`, both cursors
are within their limits and the candidates are equal, and the first assignment is that
of line 26 copying `A[1]`, the element of the right run; the element of the left run,
`A[0]`, is copied after it, by line 28. -/
theorem tie_left_counterexample :
    merge_engine 3 .A .B 0 1 2 ⟨[7, 7], [0, 0], []⟩ =
      .done ⟨[7, 7], [7, 7],
        [.call .A .B 0 1 2, .assign 26 .B 0 .A 1 7, .assign 28 .B 1 .A 0 7]⟩ ∧
    merge_engine 3 .A .B 0 1 2 ⟨[7, 7], [0, 0], []⟩ ≠
      .done ⟨[7, 7], [7, 7],
        [.call .A .B 0 1 2, .assign 24 .B 0 .A 0 7, .assign 30 .B 1 .A 1 7]⟩ := by
  decide

/-- C11: in the loop of `merge_engine`, when both read cursors are within their limits, the
element of the left run is taken (line 24, left cursor advanced) only if it is strictly
less than the element of the right run; otherwise, in particular when the two candidates
are equal, the element of the right run is copied (line 26) and the right cursor is the
one advanced. -/
theorem left_only_if_less (p1 p2 : Buf) (i0_lim i1_lim k i0 i1 j x y : Nat) (s : State)
    (h0 : i0 < i0_lim) (h1 : i1 < i1_lim)
    (hx : s.read p1 i0 = some x) (hy : s.read p1 i1 = some y)
    (hj : j < (s.buf p2).length) :
    (x < y → ∃ s1, assign 24 p1 p2 i0 j s = some s1 ∧
      s1.log = s.log ++ [.assign 24 p2 j p1 i0 x] ∧
      merge_loop p1 p2 i0_lim i1_lim (k + 1) i0 i1 j s =
        merge_loop p1 p2 i0_lim i1_lim k ((i0 + 1) % W) i1 ((j + 1) % W) s1) ∧
    (y ≤ x → ∃ s1, assign 26 p1 p2 i1 j s = some s1 ∧
      s1.log = s.log ++ [.assign 26 p2 j p1 i1 y] ∧
      merge_loop p1 p2 i0_lim i1_lim (k + 1) i0 i1 j s =
        merge_loop p1 p2 i0_lim i1_lim k i0 ((i1 + 1) % W) ((j + 1) % W) s1) := by
  constructor
  · intro hlt
    obtain ⟨s1, ha, _, _, hl⟩ := assign_eq 24 p1 p2 i0 j x s hx hj
    refine ⟨s1, ha, hl, ?_⟩
    simp [merge_loop, h0, h1, hx, hy, hlt, ha]
  · intro hle
    have hlt : ¬ x < y := by omega
    obtain ⟨s1, ha, _, _, hl⟩ := assign_eq 26 p1 p2 i1 j y s hy hj
    refine ⟨s1, ha, hl, ?_⟩
    simp [merge_loop, h0, h1, hx, hy, hlt, ha]

theorem left_only_if_less_witness :
    0 < 2 ∧ 2 < 4 ∧
    State.read ⟨[3, 8, 3, 9], [0, 0, 0, 0], []⟩ .A 0 = some 3 ∧
    State.read ⟨[3, 8, 3, 9], [0, 0, 0, 0], []⟩ .A 2 = some 3 ∧
    0 < (State.buf ⟨[3, 8, 3, 9], [0, 0, 0, 0], []⟩ .B).length ∧
    ((3 < 3 → ∃ s1, assign 24 .A .B 0 0 ⟨[3, 8, 3, 9], [0, 0, 0, 0], []⟩ = some s1 ∧
      s1.log = State.log ⟨[3, 8, 3, 9], [0, 0, 0, 0], []⟩ ++ [.assign 24 .B 0 .A 0 3] ∧
      merge_loop .A .B 2 4 (4 + 1) 0 2 0 ⟨[3, 8, 3, 9], [0, 0, 0, 0], []⟩ =
        merge_loop .A .B 2 4 4 ((0 + 1) % W) 2 ((0 + 1) % W) s1) ∧
    (3 ≤ 3 → ∃ s1, assign 26 .A .B 2 0 ⟨[3, 8, 3, 9], [0, 0, 0, 0], []⟩ = some s1 ∧
      s1.log = State.log ⟨[3, 8, 3, 9], [0, 0, 0, 0], []⟩ ++ [.assign 26 .B 0 .A 2 3] ∧
      merge_loop .A .B 2 4 (4 + 1) 0 2 0 ⟨[3, 8, 3, 9], [0, 0, 0, 0], []⟩ =
        merge_loop .A .B 2 4 4 0 ((2 + 1) % W) ((0 + 1) % W) s1)) :=
  ⟨by decide, by decide, by decide, by decide, by decide,
    left_only_if_less .A .B 2 4 4 0 2 0 3 3 ⟨[3, 8, 3, 9], [0, 0, 0, 0], []⟩ (by decide)
      (by decide) (by decide) (by decide) (by decide)⟩

/-- C12: with the device given by the values `status 0, status 1, ...` returned by the
successive reads of word 0 after the start command, `mergesort_accelerated` returns
(under some iteration budget) if and only if some `status k` is 0; if `k` is the least
such index it returns under every budget above `k`, and its log is then the fence and
the four register writes, exactly `k + 1` reads of word 0 and a final fence, with no
register written after the start command; and if no `status k` is 0 it returns under
no budget. -/
theorem accelerated_returns_iff (dev : Device) (addr : Buf → Nat) (pA pB : Buf) (n : Nat)
    (s : State) :
    ((∃ fuel s', mergesort_accelerated fuel dev addr pA pB n s = .done s') ↔
      ∃ k, dev.status k = 0) ∧
    (∀ k, dev.status k = 0 → (∀ i, i < k → dev.status i ≠ 0) → ∀ fuel, k < fuel →
      ∃ s', mergesort_accelerated fuel dev addr pA pB n s = .done s' ∧
        s'.log = s.log ++
          [.fence, .store 1 (addr pA), .store 2 (addr pB), .store 3 n, .store 0 1] ++
          (List.range (k + 1)).map (fun i => Event.load 0 (dev.status i)) ++ [.fence]) ∧
    ((∀ k, dev.status k ≠ 0) →
      ∀ fuel, ∃ t, mergesort_accelerated fuel dev addr pA pB n s = .timeout t) := by
  refine ⟨⟨?_, ?_⟩, ?_, ?_⟩
  · rintro ⟨fuel, s', hdone⟩
    by_contra hno
    have hall : ∀ i, i < fuel → dev.status i ≠ 0 := fun i _ hi => hno ⟨i, hi⟩
    obtain ⟨t, ht⟩ := accelerated_busy fuel dev addr pA pB n s hall
    rw [ht] at hdone
    cases hdone
  · intro hex
    classical
    obtain ⟨s', hdone, _⟩ := accelerated_done (Nat.find hex + 1) (Nat.find hex) dev addr pA pB
      n s (Nat.find_spec hex) (fun i hi => Nat.find_min hex hi) (by omega)
    exact ⟨_, s', hdone⟩
  · intro k hz hmin fuel hf
    exact accelerated_done fuel k dev addr pA pB n s hz hmin hf
  · intro hno fuel
    exact accelerated_busy fuel dev addr pA pB n s (fun i _ => hno i)

theorem accelerated_returns_iff_witness :
    (Device.mk (fun k => if k < 2 then 1 else 0) (fun _ _ _ m => m)).status 2 = 0 ∧
    (∀ i, i < 2 →
      (Device.mk (fun k => if k < 2 then 1 else 0) (fun _ _ _ m => m)).status i ≠ 0) ∧
    2 < 3 ∧
    (∃ s', mergesort_accelerated 3
        (Device.mk (fun k => if k < 2 then 1 else 0) (fun _ _ _ m => m))
        (fun p => match p with | Buf.A => 4096 | Buf.B => 8192) .A .B 3
        ⟨[3, 1, 2], [0, 0, 0], []⟩ = .done s' ∧
      s'.log = State.log ⟨[3, 1, 2], [0, 0, 0], []⟩ ++
        [.fence, .store 1 ((fun p => match p with | Buf.A => 4096 | Buf.B => 8192) Buf.A),
          .store 2 ((fun p => match p with | Buf.A => 4096 | Buf.B => 8192) Buf.B),
          .store 3 3, .store 0 1] ++
        (List.range (2 + 1)).map (fun i => Event.load 0
          ((Device.mk (fun k => if k < 2 then 1 else 0) (fun _ _ _ m => m)).status i))
        ++ [.fence]) :=
  ⟨by decide, by decide, by decide,
    (accelerated_returns_iff (Device.mk (fun k => if k < 2 then 1 else 0) (fun _ _ _ m => m))
      (fun p => match p with | Buf.A => 4096 | Buf.B => 8192) .A .B 3
      ⟨[3, 1, 2], [0, 0, 0], []⟩).2.1 2 (by decide) (by decide) 3 (by decide)⟩

/-- C13: the copy back `merge_engine (p1, p2, 0, n, n)` is a plain copy.  For distinct
buffers, `n < 2 ^ 63` and any content of the source, the left run is all of `[0, n)` and
the right run is empty (`i1 = i1_lim = n`); the call returns with `p2[k] = p1[k]` for
every `k < n` and the source unchanged, and its assignments are, for `t = 0, ..., n - 1`
in order, the drain of line 28 copying `p1[t]` to `p2[t]`: no iteration takes the
comparing branch (lines 24 and 26) and no element changes place. -/
theorem copy_back_copies (p1 p2 : Buf) (fuel n : Nat) (s : State)
    (hne : p1 ≠ p2) (hn : n < 2 ^ 63)
    (hsrc : n ≤ (s.buf p1).length) (hdst : n ≤ (s.buf p2).length) (hfuel : n < fuel) :
    min ((0 + n) % W) n = n ∧ (0 + n) % W = n ∧ min (((0 + n) % W + n) % W) n = n ∧
    ∃ s', merge_engine fuel p1 p2 0 n n s = .done s' ∧
      (∀ k, k < n → (s'.buf p2)[k]? = (s.buf p1)[k]?) ∧
      s'.buf p1 = s.buf p1 ∧
      s'.log = s.log ++ Event.call p1 p2 0 n n ::
        (List.range n).map (fun t => Event.assign 28 p2 t p1 t ((s.buf p1).getD t 0)) := by
  have hW : W = 2 ^ 64 := rfl
  have e1 : (0 + n) % W = n := by
    rw [Nat.zero_add]
    exact Nat.mod_eq_of_lt (by omega)
  have e2 : (n + n) % W = n + n := Nat.mod_eq_of_lt (by omega)
  have m1 : min n n = n := by rw [min_eq]; omega
  have m2 : min (n + n) n = n := by rw [min_eq]; omega
  refine ⟨by rw [e1, m1], e1, by rw [e1, e2, m2], ?_⟩
  obtain ⟨s', hrun, hr1, hr2, _⟩ := copy_back_spec hne fuel n s hn hfuel hsrc hdst
  obtain ⟨s'', hrun', hlog⟩ := merge_loop_drain_left hne n n (by omega) fuel 0 n 0
    (s.emit (.call p1 p2 0 n n)) (Nat.le_refl _) (by simpa using hsrc) (by simpa using hdst)
    (by omega) (by simpa using hfuel)
  have heq : merge_engine fuel p1 p2 0 n n s = .done s'' := by
    unfold merge_engine
    simp only [e1, e2, m1, m2]
    exact hrun'
  have hss : s'' = s' := by
    rw [hrun] at heq
    exact (Outcome.done.inj heq).symm
  subst hss
  refine ⟨s'', hrun, ?_, hr1, ?_⟩
  · intro k hk
    rw [hr2, List.getElem?_append_left (by rw [List.length_take]; omega), List.getElem?_take]
    simp [hk]
  · rw [hlog]
    simp

theorem copy_back_copies_witness :
    Buf.B ≠ Buf.A ∧ 3 < 2 ^ 63 ∧
    (min ((0 + 3) % W) 3 = 3 ∧ (0 + 3) % W = 3 ∧ min (((0 + 3) % W + 3) % W) 3 = 3 ∧
    ∃ s', merge_engine 4 .B .A 0 3 3 ⟨[0, 0, 0], [7, 2, 5], []⟩ = .done s' ∧
      (∀ k, k < 3 →
        (s'.buf .A)[k]? = (State.buf ⟨[0, 0, 0], [7, 2, 5], []⟩ .B)[k]?) ∧
      s'.buf .B = State.buf ⟨[0, 0, 0], [7, 2, 5], []⟩ .B ∧
      s'.log = State.log ⟨[0, 0, 0], [7, 2, 5], []⟩ ++ Event.call .B .A 0 3 3 ::
        (List.range 3).map (fun t => Event.assign 28 .A t .B t
          ((State.buf ⟨[0, 0, 0], [7, 2, 5], []⟩ .B).getD t 0))) :=
  ⟨by decide, by norm_num,
    copy_back_copies .B .A 4 3 ⟨[0, 0, 0], [7, 2, 5], []⟩ (by decide) (by norm_num)
      (by decide) (by decide) (by decide)⟩

/-- C14: scenario `n = 6`, `A = [5, 4, 3, 2, 1, 0]`, under every budget from 7 on.  The pass
with span 1 leaves `[4, 5, 2, 3, 0, 1]` in the buffer it writes (`B`), the pass with
span 2 leaves `[2, 3, 4, 5, 0, 1]` in the buffer it writes (`A`), the pass with span 4
leaves `[0, 1, 2, 3, 4, 5]` in the buffer it writes (`B`); the run of `mergesort` is the
outer loop continued from that state with span 8, and the passes it logs are exactly
those of spans 1, 2 and 4. -/
theorem scenario_six_passes (d : Nat) :
    ∃ s1 s2 s3 s4 : State,
      mergesort_pass (7 + d) .A .B 1 6 (7 + d) 0 (scenario_six.emit (.pass 1)) = .done s1 ∧
      s1.B = [4, 5, 2, 3, 0, 1] ∧
      mergesort_pass (7 + d) .B .A 2 6 (7 + d) 0 (s1.emit (.pass 2)) = .done s2 ∧
      s2.A = [2, 3, 4, 5, 0, 1] ∧
      mergesort_pass (7 + d) .A .B 4 6 (7 + d) 0 (s2.emit (.pass 4)) = .done s3 ∧
      s3.B = [0, 1, 2, 3, 4, 5] ∧
      mergesort (7 + d) .A .B 6 scenario_six
        = mergesort_loop (7 + d) .B 6 (4 + d) 8 .B .A s3 ∧
      mergesort (7 + d) .A .B 6 scenario_six = .done s4 ∧
      passes s4.log = [1, 2, 4] := by
  obtain ⟨s1, e1⟩ : ∃ t, t = (mergesort_pass 7 .A .B 1 6 7 0
    (scenario_six.emit (.pass 1))).state := ⟨_, rfl⟩
  have h1 : mergesort_pass 7 .A .B 1 6 7 0 (scenario_six.emit (.pass 1)) = .done s1 := by
    subst e1
    decide
  obtain ⟨s2, e2⟩ : ∃ t, t = (mergesort_pass 7 .B .A 2 6 7 0 (s1.emit (.pass 2))).state :=
    ⟨_, rfl⟩
  have h2 : mergesort_pass 7 .B .A 2 6 7 0 (s1.emit (.pass 2)) = .done s2 := by
    subst e2 e1
    decide
  obtain ⟨s3, e3⟩ : ∃ t, t = (mergesort_pass 7 .A .B 4 6 7 0 (s2.emit (.pass 4))).state :=
    ⟨_, rfl⟩
  have h3 : mergesort_pass 7 .A .B 4 6 7 0 (s2.emit (.pass 4)) = .done s3 := by
    subst e3 e2 e1
    decide
  obtain ⟨s4, e4⟩ : ∃ t, t = (mergesort 7 .A .B 6 scenario_six).state := ⟨_, rfl⟩
  have h4 : mergesort 7 .A .B 6 scenario_six = .done s4 := by
    subst e4
    decide
  have h5 : mergesort_loop 7 .B 6 4 8 .B .A s3 = .done s4 := by
    subst e4 e3 e2 e1
    decide
  refine ⟨s1, s2, s3, s4, mergesort_pass_mono 7 d .A .B 1 6 7 d 0 _ _ h1 (by simp), ?_,
    mergesort_pass_mono 7 d .B .A 2 6 7 d 0 _ _ h2 (by simp), ?_,
    mergesort_pass_mono 7 d .A .B 4 6 7 d 0 _ _ h3 (by simp), ?_, ?_,
    mergesort_mono 7 d .A .B 6 _ _ h4 (by simp), ?_⟩
  · subst e1
    decide
  · subst e2 e1
    decide
  · subst e3 e2 e1
    decide
  · rw [mergesort_mono 7 d .A .B 6 _ _ h4 (by simp),
      mergesort_loop_mono 7 d .B 6 4 d 8 .B .A _ _ h5 (by simp)]
  · subst e4
    decide

/-- C15 (as the code has it): scenario `n = 6`, `A = [5, 4, 3, 2, 1, 0]`, under every
budget from 7 on.  After the three passes (spans 1, 2, 4) the sorted data is in the
scratch buffer `B` while `A` holds `[2, 3, 4, 5, 0, 1]`; the loop exits with `p1 == pB`,
so what `mergesort` still does is the copy back `merge_engine (pB, pA, 0, 6, 6)`, which
returns with `[0, 1, 2, 3, 4, 5]` in `A`. -/
theorem scenario_six_copy_back (d : Nat) :
    ∃ s1 s2 s3 s4 : State,
      mergesort_pass (7 + d) .A .B 1 6 (7 + d) 0 (scenario_six.emit (.pass 1)) = .done s1 ∧
      mergesort_pass (7 + d) .B .A 2 6 (7 + d) 0 (s1.emit (.pass 2)) = .done s2 ∧
      mergesort_pass (7 + d) .A .B 4 6 (7 + d) 0 (s2.emit (.pass 4)) = .done s3 ∧
      s3.A = [2, 3, 4, 5, 0, 1] ∧ s3.B = [0, 1, 2, 3, 4, 5] ∧
      mergesort (7 + d) .A .B 6 scenario_six = merge_engine (7 + d) .B .A 0 6 6 s3 ∧
      merge_engine (7 + d) .B .A 0 6 6 s3 = .done s4 ∧
      s4.A = [0, 1, 2, 3, 4, 5] ∧ s4.B = [0, 1, 2, 3, 4, 5] := by
  obtain ⟨s1, e1⟩ : ∃ t, t = (mergesort_pass 7 .A .B 1 6 7 0
    (scenario_six.emit (.pass 1))).state := ⟨_, rfl⟩
  have h1 : mergesort_pass 7 .A .B 1 6 7 0 (scenario_six.emit (.pass 1)) = .done s1 := by
    subst e1
    decide
  obtain ⟨s2, e2⟩ : ∃ t, t = (mergesort_pass 7 .B .A 2 6 7 0 (s1.emit (.pass 2))).state :=
    ⟨_, rfl⟩
  have h2 : mergesort_pass 7 .B .A 2 6 7 0 (s1.emit (.pass 2)) = .done s2 := by
    subst e2 e1
    decide
  obtain ⟨s3, e3⟩ : ∃ t, t = (mergesort_pass 7 .A .B 4 6 7 0 (s2.emit (.pass 4))).state :=
    ⟨_, rfl⟩
  have h3 : mergesort_pass 7 .A .B 4 6 7 0 (s2.emit (.pass 4)) = .done s3 := by
    subst e3 e2 e1
    decide
  obtain ⟨s4, e4⟩ : ∃ t, t = (mergesort 7 .A .B 6 scenario_six).state := ⟨_, rfl⟩
  have h4 : mergesort 7 .A .B 6 scenario_six = .done s4 := by
    subst e4
    decide
  have h5 : merge_engine 7 .B .A 0 6 6 s3 = .done s4 := by
    subst e4 e3 e2 e1
    decide
  refine ⟨s1, s2, s3, s4, mergesort_pass_mono 7 d .A .B 1 6 7 d 0 _ _ h1 (by simp),
    mergesort_pass_mono 7 d .B .A 2 6 7 d 0 _ _ h2 (by simp),
    mergesort_pass_mono 7 d .A .B 4 6 7 d 0 _ _ h3 (by simp), ?_, ?_, ?_,
    merge_engine_mono 7 d .B .A 0 6 6 _ _ h5 (by simp), ?_, ?_⟩
  · subst e3 e2 e1
    decide
  · subst e3 e2 e1
    decide
  · rw [mergesort_mono 7 d .A .B 6 _ _ h4 (by simp),
      merge_engine_mono 7 d .B .A 0 6 6 _ _ h5 (by simp)]
  · subst e4
    decide
  · subst e4
    decide

/-- C15 as stated fails: in the scenario `n = 6`, `A = [5, 4, 3, 2, 1, 0]` the run returns
and the calls of `merge_engine` it made are, in order, three for the pass with span 1,
two for the pass with span 2, one for the pass with span 4, which writes the sorted
data into `B`, and then the copy back `merge_engine (pB, pA, 0, 6, 6)`. -/
theorem scenario_six_copy_back_runs :
    mergesort 7 .A .B 6 scenario_six
      = .done (mergesort 7 .A .B 6 scenario_six).state ∧
    calls (mergesort 7 .A .B 6 scenario_six).state.log =
      [.call .A .B 0 1 6, .call .A .B 2 1 6, .call .A .B 4 1 6,
        .call .B .A 0 2 6, .call .B .A 4 2 6, .call .A .B 0 4 6, .call .B .A 0 6 6] := by
  decide

/-- C16: for `n = 2`, distinct buffers and every content, `mergesort` returns having called
`merge_engine` twice: first `merge_engine (pA, pB, 0, 1, 2)`, the one call that merges
two spans of length 1, then the copy back `merge_engine (pB, pA, 0, 2, 2)`; on return
the first two elements of `pA` are in order and a permutation of the original pair. -/
theorem mergesort_two (pA pB : Buf) (fuel : Nat) (s : State)
    (hne : pA ≠ pB) (hA : 2 ≤ (s.buf pA).length) (hB : 2 ≤ (s.buf pB).length)
    (hfuel : 2 < fuel) :
    ∃ s' new, mergesort fuel pA pB 2 s = .done s' ∧ s'.log = s.log ++ new ∧
      calls new = [Event.call pA pB 0 1 2, Event.call pB pA 0 2 2] ∧
      ((s'.buf pA).take 2).Sorted (· ≤ ·) ∧
      ((s'.buf pA).take 2).Perm ((s.buf pA).take 2) := by
  obtain ⟨f, rfl⟩ : ∃ f, fuel = f + 3 := ⟨fuel - 3, by omega⟩
  obtain ⟨s', evs1, evs2, hrun, hlog, h1, h2⟩ := mergesort_two_trace pA pB f s hA hB
  obtain ⟨s'', hrun', hs, hp, _, _⟩ := mergesort_spec hne (f + 3) 2 s (by norm_num)
    (by omega) hA hB
  have hss : s'' = s' := by
    rw [hrun] at hrun'
    exact (Outcome.done.inj hrun').symm
  subst hss
  refine ⟨s'', [Event.pass 1, Event.call pA pB 0 1 2] ++ evs1
    ++ [Event.call pB pA 0 2 2] ++ evs2, hrun, ?_, ?_, hs, hp⟩
  · rw [hlog]
    simp
  · rw [calls_append, calls_append, calls_append, calls_eq_nil evs1 h1, calls_eq_nil evs2 h2]
    simp [calls, Event.isCall]

theorem mergesort_two_witness :
    Buf.A ≠ Buf.B ∧ 2 ≤ (State.buf ⟨[9, 4], [0, 0], []⟩ .A).length ∧
    2 ≤ (State.buf ⟨[9, 4], [0, 0], []⟩ .B).length ∧ 2 < 3 ∧
    (∃ s' new, mergesort 3 .A .B 2 ⟨[9, 4], [0, 0], []⟩ = .done s' ∧
      s'.log = State.log ⟨[9, 4], [0, 0], []⟩ ++ new ∧
      calls new = [Event.call .A .B 0 1 2, Event.call .B .A 0 2 2] ∧
      ((s'.buf .A).take 2).Sorted (· ≤ ·) ∧
      ((s'.buf .A).take 2).Perm ((State.buf ⟨[9, 4], [0, 0], []⟩ .A).take 2)) :=
  ⟨by decide, by decide, by decide, by decide,
    mergesort_two .A .B 3 ⟨[9, 4], [0, 0], []⟩ (by decide) (by decide) (by decide)
      (by decide)⟩

/-- C17: for `n < 2 ^ 63` on distinct buffers of capacity at least `n`, `mergesort`
returns; its outer loop runs the passes with spans `1, 2, 4, ..., 2 ^ (c - 1)` where
`c = ⌈log₂ n⌉`, every one of them below `n`, and stops at `2 ^ c ≥ n`, so it runs `c`
passes, at most `c + 1`; and no index computation wraps: every pass has
`span * 2 < 2 ^ 64` and every call of `merge_engine` has `i0 + 2 * span < 2 ^ 64`. -/
theorem outer_loop_passes (pA pB : Buf) (fuel n : Nat) (s : State)
    (hne : pA ≠ pB) (hn : n < 2 ^ 63)
    (hA : n ≤ (s.buf pA).length) (hB : n ≤ (s.buf pB).length) (hfuel : n < fuel) :
    ∃ s' new, mergesort fuel pA pB n s = .done s' ∧ s'.log = s.log ++ new ∧
      passes new = (List.range (Nat.clog 2 n)).map (2 ^ ·) ∧
      (∀ sp ∈ passes new, sp < n) ∧ n ≤ 2 ^ Nat.clog 2 n ∧
      (passes new).length ≤ Nat.clog 2 n + 1 ∧
      (∀ sp, Event.pass sp ∈ new → sp * 2 < 2 ^ 64) ∧
      (∀ q1 q2 i0 sp m, Event.call q1 q2 i0 sp m ∈ new → i0 + 2 * sp < 2 ^ 64) := by
  obtain ⟨s', new, hrun, hlog, hpass, hnew, _⟩ := mergesort_loop_trace fuel n pB hn hfuel
    fuel 0 pA pB s hne hA hB (by simp; omega)
  have hp : passes new = (List.range (Nat.clog 2 n)).map (2 ^ ·) := by
    rw [hpass, List.range_eq_range']
    simp
  refine ⟨s', new, by simpa [mergesort] using hrun, hlog, hp, ?_, ?_, ?_, ?_, ?_⟩
  · intro sp hsp
    rw [hp] at hsp
    obtain ⟨i, hi, rfl⟩ := List.mem_map.mp hsp
    exact (Nat.pow_lt_iff_lt_clog (by norm_num)).mpr (List.mem_range.mp hi)
  · exact Nat.le_pow_clog (by norm_num) n
  · rw [hp]
    simp
  · intro sp hsp
    rcases hnew _ hsp with ⟨sp', h, _, hw⟩ | ⟨_, _, _, _, h, _⟩ | ⟨_, h, _⟩ | ⟨_, _, _, _, _, _, h⟩
    · cases h
      exact hw
    · cases h
    · cases h
    · cases h
  · intro q1 q2 i0 sp m hc
    rcases hnew _ hc with ⟨_, h, _⟩ | ⟨_, _, _, _, h, _, _, hw⟩ | ⟨_, h, _⟩ |
      ⟨_, _, _, _, _, _, h⟩
    · cases h
    · cases h
      omega
    · cases h
      omega
    · cases h

theorem outer_loop_passes_witness :
    Buf.A ≠ Buf.B ∧ 5 < 2 ^ 63 ∧
    (∃ s' new, mergesort 6 .A .B 5 ⟨[4, 3, 2, 1, 0], [0, 0, 0, 0, 0], []⟩ = .done s' ∧
      s'.log = State.log ⟨[4, 3, 2, 1, 0], [0, 0, 0, 0, 0], []⟩ ++ new ∧
      passes new = (List.range (Nat.clog 2 5)).map (2 ^ ·) ∧
      (∀ sp ∈ passes new, sp < 5) ∧ 5 ≤ 2 ^ Nat.clog 2 5 ∧
      (passes new).length ≤ Nat.clog 2 5 + 1 ∧
      (∀ sp, Event.pass sp ∈ new → sp * 2 < 2 ^ 64) ∧
      (∀ q1 q2 i0 sp m, Event.call q1 q2 i0 sp m ∈ new → i0 + 2 * sp < 2 ^ 64)) :=
  ⟨by decide, by norm_num,
    outer_loop_passes .A .B 6 5 ⟨[4, 3, 2, 1, 0], [0, 0, 0, 0, 0], []⟩ (by decide)
      (by norm_num) (by decide) (by decide) (by decide)⟩

/-- C18: for `n < 2 ^ 63` on distinct buffers of capacity at least `n`, for every
`m ≤ ⌈log₂ n⌉` the run of `mergesort` is the outer loop continued from the state reached
after `m` passes, with span `2 ^ m` and the buffers swapped `m` times; in that state,
for every multiple `b < n` of the span, the block `p1[b .. min (b + span) n)` of the
buffer read next is non-decreasing and a permutation of the same block of the original
`A`, and `p1[0 .. n)` is a permutation of the original `A[0 .. n)`. -/
theorem pass_invariant (pA pB : Buf) (fuel n m : Nat) (s : State)
    (hne : pA ≠ pB) (hn : n < 2 ^ 63)
    (hA : n ≤ (s.buf pA).length) (hB : n ≤ (s.buf pB).length) (hfuel : n < fuel)
    (hm : m ≤ Nat.clog 2 n) :
    ∃ (t : State) (p1 p2 : Buf),
      mergesort fuel pA pB n s = mergesort_loop fuel pB n (fuel - m) (2 ^ m) p1 p2 t ∧
      (∀ b, 2 ^ m ∣ b → b < n →
        (slice (t.buf p1) b (min (b + 2 ^ m) n)).Sorted (· ≤ ·) ∧
        (slice (t.buf p1) b (min (b + 2 ^ m) n)).Perm
          (slice (s.buf pA) b (min (b + 2 ^ m) n))) ∧
      ((t.buf p1).take n).Perm ((s.buf pA).take n) := by
  obtain ⟨t, p1, p2, hrun, _, _, _, hsorted, hblocks, hperm⟩ :=
    mergesort_reaches pA pB fuel n s hne hn hA hB hfuel m hm
  refine ⟨t, p1, p2, hrun, ?_, hperm⟩
  intro b hb _
  obtain ⟨q, rfl⟩ := hb
  have hs := hsorted q
  have hp := hblocks q
  rw [slice_take_left] at hs hp
  rw [slice_take_left] at hp
  rw [Nat.mul_comm q] at hs hp
  simp only [min_eq]
  exact ⟨hs, hp⟩

theorem pass_invariant_witness :
    Buf.A ≠ Buf.B ∧ 5 < 2 ^ 63 ∧ 2 ≤ Nat.clog 2 5 ∧
    (∃ (t : State) (p1 p2 : Buf),
      mergesort 6 .A .B 5 ⟨[4, 3, 2, 1, 0], [0, 0, 0, 0, 0], []⟩
        = mergesort_loop 6 .B 5 (6 - 2) (2 ^ 2) p1 p2 t ∧
      (∀ b, 2 ^ 2 ∣ b → b < 5 →
        (slice (t.buf p1) b (min (b + 2 ^ 2) 5)).Sorted (· ≤ ·) ∧
        (slice (t.buf p1) b (min (b + 2 ^ 2) 5)).Perm
          (slice (State.buf ⟨[4, 3, 2, 1, 0], [0, 0, 0, 0, 0], []⟩ .A) b (min (b + 2 ^ 2) 5))) ∧
      ((t.buf p1).take 5).Perm
        ((State.buf ⟨[4, 3, 2, 1, 0], [0, 0, 0, 0, 0], []⟩ .A).take 5)) :=
  ⟨by decide, by norm_num, (Nat.pow_lt_iff_lt_clog (by norm_num)).mp (by norm_num),
    pass_invariant .A .B 6 5 2 ⟨[4, 3, 2, 1, 0], [0, 0, 0, 0, 0], []⟩ (by decide)
      (by norm_num) (by decide) (by decide) (by decide)
      ((Nat.pow_lt_iff_lt_clog (by norm_num)).mp (by norm_num))⟩

/-- C19: for `n < 2 ^ 63` on distinct buffers of capacity at least `n`, `mergesort` returns
and calls `merge_engine` with span `n` (the copy back) if and only if the outer loop ran
an odd number of passes, that is if and only if `n ≥ 2` and `⌈log₂ n⌉` is odd; when it
does, the call is `merge_engine (pB, pA, 0, n, n)` and on return the first `n` elements
of `pB` equal those of `pA`, which are sorted. -/
theorem copy_back_iff_odd (pA pB : Buf) (fuel n : Nat) (s : State)
    (hne : pA ≠ pB) (hn : n < 2 ^ 63)
    (hA : n ≤ (s.buf pA).length) (hB : n ≤ (s.buf pB).length) (hfuel : n < fuel) :
    ∃ s' new, mergesort fuel pA pB n s = .done s' ∧ s'.log = s.log ++ new ∧
      ((∃ q1 q2 i0, Event.call q1 q2 i0 n n ∈ new) ↔ Odd (passes new).length) ∧
      (Odd (passes new).length ↔ 2 ≤ n ∧ Odd (Nat.clog 2 n)) ∧
      (Odd (passes new).length →
        Event.call pB pA 0 n n ∈ new ∧ (s'.buf pB).take n = (s'.buf pA).take n ∧
        ((s'.buf pA).take n).Sorted (· ≤ ·)) := by
  obtain ⟨s', new, hrun, hlog, hpass, hnew, hcb⟩ := mergesort_loop_trace fuel n pB hn hfuel
    fuel 0 pA pB s hne hA hB (by simp; omega)
  have hrun0 : mergesort fuel pA pB n s = .done s' := by simpa [mergesort] using hrun
  obtain ⟨s'', hrun', hs, _, _, _⟩ := mergesort_spec hne fuel n s hn hfuel hA hB
  have hss : s'' = s' := by
    rw [hrun0] at hrun'
    exact (Outcome.done.inj hrun').symm
  subst hss
  have hlen : (passes new).length = Nat.clog 2 n := by
    rw [hpass]
    simp
  rw [Nat.sub_zero] at hnew hcb
  have hodd : Odd (Nat.clog 2 n) →
      Event.call pB pA 0 n n ∈ new ∧ (s''.buf pB).take n = (s''.buf pA).take n := by
    intro ho
    obtain ⟨q, hq, hmem, hbuf⟩ := hcb (Or.inr ⟨ho, rfl⟩)
    have : q = pA := by
      rcases buf_cases hne q with h | h
      · exact h
      · exact absurd h hq
    subst this
    exact ⟨hmem, hbuf.symm⟩
  refine ⟨s'', new, hrun', hlog, ?_, ?_, ?_⟩
  · rw [hlen]
    constructor
    · rintro ⟨q1, q2, i0, hmem⟩
      rcases hnew _ hmem with ⟨_, h, _⟩ | ⟨_, _, _, _, h, hsp, _⟩ | ⟨_, _, hc⟩ |
        ⟨_, _, _, _, _, _, h⟩
      · cases h
      · cases h
        omega
      · rcases hc with ⟨_, h⟩ | ⟨h, _⟩
        · exact absurd h hne
        · exact h
      · cases h
    · intro ho
      exact ⟨pB, pA, 0, (hodd ho).1⟩
  · rw [hlen]
    constructor
    · intro ho
      refine ⟨?_, ho⟩
      by_contra hlt
      rw [Nat.clog_of_right_le_one (by omega)] at ho
      exact absurd ho (by decide)
    · exact fun h => h.2
  · rw [hlen]
    intro ho
    exact ⟨(hodd ho).1, (hodd ho).2, hs⟩

theorem copy_back_iff_odd_witness :
    Buf.A ≠ Buf.B ∧ 2 < 2 ^ 63 ∧
    (∃ s' new, mergesort 3 .A .B 2 ⟨[9, 4], [0, 0], []⟩ = .done s' ∧
      s'.log = State.log ⟨[9, 4], [0, 0], []⟩ ++ new ∧
      ((∃ q1 q2 i0, Event.call q1 q2 i0 2 2 ∈ new) ↔ Odd (passes new).length) ∧
      (Odd (passes new).length ↔ 2 ≤ 2 ∧ Odd (Nat.clog 2 2)) ∧
      (Odd (passes new).length →
        Event.call .B .A 0 2 2 ∈ new ∧ (s'.buf .B).take 2 = (s'.buf .A).take 2 ∧
        ((s'.buf .A).take 2).Sorted (· ≤ ·))) :=
  ⟨by decide, by norm_num,
    copy_back_iff_odd .A .B 3 2 ⟨[9, 4], [0, 0], []⟩ (by decide) (by norm_num) (by decide)
      (by decide) (by decide)⟩

/-- C20: `merge_engine` is total.  For all `i0`, `span`, `n` with `i0 + 2 * span < 2 ^ 64`
(nothing assumed about `i0 < n`, `span ≥ 1`, the order of the runs or the two buffers
being distinct), on buffers that reach up to `min (i0 + 2 * span) n`, the call returns
under every budget above `min (i0 + 2 * span) n - min i0 n`, having written exactly the
indices `i0, i0 + 1, ...` of the destination, that many of them; when `i0 ≥ n` or
`span = 0` it has done nothing but log its own entry.  And every iteration of its loop
that does not leave the loop lowers the sum of the two remaining run lengths by one. -/
theorem merge_engine_total (p1 p2 : Buf) (fuel i0 span n : Nat) (s : State)
    (hW : i0 + 2 * span < 2 ^ 64) (hn : n < 2 ^ 64)
    (hsrc : min (i0 + 2 * span) n ≤ (s.buf p1).length)
    (hdst : min (i0 + 2 * span) n ≤ (s.buf p2).length)
    (hfuel : min (i0 + 2 * span) n - min i0 n < fuel) :
    (∃ s', merge_engine fuel p1 p2 i0 span n s = .done s' ∧
      writes s'.log = writes s.log ++
        (List.range' i0 (min (i0 + 2 * span) n - min i0 n)).map (fun k => (p2, k)) ∧
      (n ≤ i0 ∨ span = 0 → s' = s.emit (.call p1 p2 i0 span n))) ∧
    (∀ (k c0 c1 j l0 l1 : Nat) (t : State), l0 < W → l1 < W →
      l0 ≤ (t.buf p1).length → l1 ≤ (t.buf p1).length → j < (t.buf p2).length →
      0 < (l0 - c0) + (l1 - c1) →
      ∃ c0' c1' t1, merge_loop p1 p2 l0 l1 (k + 1) c0 c1 j t
          = merge_loop p1 p2 l0 l1 k c0' c1' ((j + 1) % W) t1 ∧
        (l0 - c0') + (l1 - c1') + 1 = (l0 - c0) + (l1 - c1)) := by
  have hWW : W = 2 ^ 64 := rfl
  rw [min_eq] at hsrc hdst
  rw [min_eq, min_eq] at hfuel
  simp only [min_eq]
  have e1 : (i0 + span) % W = i0 + span := Nat.mod_eq_of_lt (by omega)
  have e2 : (i0 + span + span) % W = i0 + 2 * span := by
    rw [Nat.mod_eq_of_lt (by omega)]
    omega
  have hcnt : (Min.min (i0 + span) n - i0) + (Min.min (i0 + 2 * span) n - (i0 + span))
      = Min.min (i0 + 2 * span) n - Min.min i0 n := by omega
  constructor
  · obtain ⟨s', hrun, _, hzero, hw, _⟩ := merge_loop_total p1 p2 (Min.min (i0 + span) n)
      (Min.min (i0 + 2 * span) n) (by omega) (by omega) fuel i0 (i0 + span) i0
      (s.emit (.call p1 p2 i0 span n)) (by simp; omega) (by simpa using hsrc)
      (by intro _; simp; omega) (by omega) (by omega)
    refine ⟨s', ?_, ?_, ?_⟩
    · unfold merge_engine
      simp only [e1, e2, min_eq]
      exact hrun
    · rw [hw, hcnt]
      simp [writes_append, writes, Event.written]
    · intro h
      exact hzero (by omega)
  · intro k c0 c1 j l0 l1 t h0W h1W hl0 hl1 hj hm
    obtain ⟨c0', c1', t1, hstep, hdec, _, _, _⟩ :=
      merge_loop_step p1 p2 l0 l1 k c0 c1 j t h0W h1W hl0 hl1 hj hm
    exact ⟨c0', c1', t1, hstep, hdec⟩

theorem merge_engine_total_witness :
    5 + 2 * 2 < 2 ^ 64 ∧ 3 < 2 ^ 64 ∧
    ((∃ s', merge_engine 1 .A .B 5 2 3 ⟨[3, 1, 2], [0, 0, 0], []⟩ = .done s' ∧
      writes s'.log = writes (State.log ⟨[3, 1, 2], [0, 0, 0], []⟩) ++
        (List.range' 5 (min (5 + 2 * 2) 3 - min 5 3)).map (fun k => (Buf.B, k)) ∧
      (3 ≤ 5 ∨ 2 = 0 →
        s' = State.emit ⟨[3, 1, 2], [0, 0, 0], []⟩ (.call .A .B 5 2 3))) ∧
    (∀ (k c0 c1 j l0 l1 : Nat) (t : State), l0 < W → l1 < W →
      l0 ≤ (t.buf .A).length → l1 ≤ (t.buf .A).length → j < (t.buf .B).length →
      0 < (l0 - c0) + (l1 - c1) →
      ∃ c0' c1' t1, merge_loop .A .B l0 l1 (k + 1) c0 c1 j t
          = merge_loop .A .B l0 l1 k c0' c1' ((j + 1) % W) t1 ∧
        (l0 - c0') + (l1 - c1') + 1 = (l0 - c0) + (l1 - c1))) :=
  ⟨by norm_num, by norm_num,
    merge_engine_total .A .B 1 5 2 3 ⟨[3, 1, 2], [0, 0, 0], []⟩ (by norm_num) (by norm_num)
      (by decide) (by decide) (by decide)⟩

end Mergesort
